import Mathlib

/-!
Verification of the bitrat reconciliation engine (`bitrat/core.py`,
`bitrat/console.py`, `bitrat/database.py`) against its specification.

The Python program is shallowly embedded as pure Lean functions:

* the SQLite ledger (`database.py`) becomes a `List Record` with
  `update_record` modelling `INSERT OR REPLACE`, `delete_record` modelling
  `DELETE WHERE path=?` and `record_exists` modelling the `EXISTS` query;
* the `ProcessPoolExecutor` futures become an oracle
  `hashOut : String → HashOutcome` giving, per path, the outcome of the
  `get_hash` worker (`ok result`, a `FileNotFoundError`, or any other
  exception), and the filesystem becomes `isFile : String → Bool`;
* each pass of `core.py` (`check_files`, `update_files`) is split exactly as
  the Python is: a submission loop (phase 1) followed by a loop over the
  completed futures (phase 2), folded over the input list.  Completion order
  of futures is arbitrary at runtime; theorems quantify over the processed
  list, covering every order;
* the side effects of a pass (stdout/stderr lines, database mutations and
  commits) are recorded in an event trace `List Ev`; `Ev.unchanged` and
  `Ev.skippedVanished` mark classifications for which the Python prints
  nothing (`reported` is `false` for them);
* float modification times are modelled as `Int`: the code only ever
  compares them for equality.
-/

namespace Bitrat

/-- Process exit status, from `bitrat/console.py` (`class ExitCode`). -/
inductive ExitCode : Type where
  | Success : ExitCode
  | Failure : ExitCode
deriving DecidableEq, Repr

/-- Numeric value of the `IntEnum` members (`Success = 0`, `Failure = 1`). -/
def ExitCode.toNat : ExitCode → Nat
  | ExitCode.Success => 0
  | ExitCode.Failure => 1

/-- One ledger row, from `bitrat/database.py` (`class Record`): path (the
primary key), digest bytes, and modification timestamp. -/
structure Record : Type where
  path : String
  hash : List Nat
  modified : Int
deriving DecidableEq, Repr

/-- Result of one digest-worker read, from `bitrat/core.py`
(`class HashResult`). -/
structure HashResult : Type where
  hash : List Nat
  modified : Int
deriving DecidableEq, Repr

/-- Outcome of a `get_hash` future as observed by `future.result()`:
either a `HashResult`, a `FileNotFoundError`, or any other exception. -/
inductive HashOutcome : Type where
  | ok : HashResult → HashOutcome
  | notFound : HashOutcome
  | err : HashOutcome
deriving DecidableEq, Repr

/-- The per-file classification of the spec (§3 `ScanOutcome`). -/
inductive Outcome : Type where
  | Removed : Outcome
  | Updated : Outcome
  | BitRotDetected : Outcome
  | Added : Outcome
  | Unchanged : Outcome
  | HashError : Outcome
deriving DecidableEq, Repr

/-- One observable event of a pass: a report line, a silent classification,
or a database commit.  `bitRot` carries the evidence printed by
`check_files`: recorded digest, current digest, recorded and current
modification time. -/
inductive Ev : Type where
  | removed : String → Ev
  | updated : String → Ev
  | added : String → Ev
  | bitRot : String → List Nat → List Nat → Int → Int → Ev
  | hashError : String → Ev
  | unchanged : String → Ev
  | skippedVanished : String → Ev
  | encodingError : String → Ev
  | commit : Ev
deriving DecidableEq, Repr

/-- Events that correspond to a ledger mutation (`UPDATE`/`DELETE`/`INSERT`). -/
def isMutation : Ev → Bool
  | Ev.removed _ => true
  | Ev.updated _ => true
  | Ev.added _ => true
  | _ => false

/-- Events that are a corruption report. -/
def isBitRot : Ev → Bool
  | Ev.bitRot _ _ _ _ _ => true
  | _ => false

/-- Whether the event produces an output line in the Python code.
`unchanged` and `skippedVanished` are silent (`check_files` prints nothing
for an unchanged record, and `except FileNotFoundError: continue` is
silent); commits print nothing. -/
def reported : Ev → Bool
  | Ev.unchanged _ => false
  | Ev.skippedVanished _ => false
  | Ev.commit => false
  | _ => true

/-- The path an event concerns, if any. -/
def evPath : Ev → Option String
  | Ev.removed p => some p
  | Ev.updated p => some p
  | Ev.added p => some p
  | Ev.bitRot p _ _ _ _ => some p
  | Ev.hashError p => some p
  | Ev.unchanged p => some p
  | Ev.skippedVanished p => some p
  | Ev.encodingError p => some p
  | Ev.commit => none

/-- `database.py` `delete_record`: `DELETE FROM records WHERE path=?`. -/
def delete_record (l : List Record) (p : String) : List Record :=
  l.filter fun r => decide (r.path ≠ p)

/-- `database.py` `update_record`: `INSERT OR REPLACE INTO records`, an
atomic replace keyed by path. -/
def update_record (l : List Record) (p : String) (hash : List Nat)
    (modified : Int) : List Record :=
  delete_record l p ++ [⟨p, hash, modified⟩]

/-- `database.py` `record_exists`: `SELECT EXISTS(... WHERE path=?)`. -/
def record_exists (l : List Record) (p : String) : Bool :=
  l.any fun r => decide (r.path = p)

/-- The mutable state of one pass: the in-transaction ledger contents, the
`database_changes` counter, the pass's `exit_code` variable, and the trace
of events so far. -/
structure PassState : Type where
  ledger : List Record
  changes : Nat
  exitCode : ExitCode
  events : List Ev
deriving DecidableEq, Repr

/-- State at the top of each pass (`exit_code = ExitCode.Success`,
`database_changes = 0`). -/
def initState (ledger : List Record) : PassState :=
  ⟨ledger, 0, ExitCode.Success, []⟩

/-- The closure `maybe_commit` in `check_files`/`update_files`: commit and
reset the counter when `database_changes % save_every == 0`. -/
def maybe_commit (saveEvery : Nat) (st : PassState) : PassState :=
  if st.changes % saveEvery = 0 then
    { st with changes := 0, events := st.events ++ [Ev.commit] }
  else st

/-- The unconditional `database.commit()` at the end of each pass. -/
def finishPass (st : PassState) : PassState :=
  { st with events := st.events ++ [Ev.commit] }

/-- The comparison chain of `check_files` for a completed hash result:
`record.modified != result.modified` gives `Updated`, else
`record.hash != result.hash` gives `BitRotDetected`, else the record is
unchanged. -/
def classify (record : Record) (result : HashResult) : Outcome :=
  if record.modified ≠ result.modified then Outcome.Updated
  else if record.hash ≠ result.hash then Outcome.BitRotDetected
  else Outcome.Unchanged

/-- One iteration of the first loop of `check_files`: a record whose file is
gone is deleted (no `maybe_commit` on that branch — the Python `continue`s
before reaching it); otherwise the record is submitted to the pool and
`maybe_commit` runs. -/
def checkPhase1Step (saveEvery : Nat) (isFile : String → Bool)
    (acc : PassState × List Record) (record : Record) :
    PassState × List Record :=
  if isFile record.path then
    (maybe_commit saveEvery acc.1, acc.2 ++ [record])
  else
    ({ acc.1 with
        ledger := delete_record acc.1.ledger record.path,
        changes := acc.1.changes + 1,
        events := acc.1.events ++ [Ev.removed record.path] }, acc.2)

/-- The first loop of `check_files` over all ledger records, returning the
state and the list of submitted records. -/
def checkPhase1 (saveEvery : Nat) (isFile : String → Bool)
    (records : List Record) : PassState × List Record :=
  records.foldl (checkPhase1Step saveEvery isFile) (initState records, [])

/-- One iteration of the `as_completed` loop of `check_files`: skip
silently on `FileNotFoundError`, report and skip on any other error (both
`continue` before `maybe_commit`), otherwise classify against the stored
record, mutate or report accordingly, and run `maybe_commit`. -/
def checkPhase2Step (saveEvery : Nat) (hashOut : String → HashOutcome)
    (st : PassState) (record : Record) : PassState :=
  match hashOut record.path with
  | HashOutcome.notFound =>
      { st with events := st.events ++ [Ev.skippedVanished record.path] }
  | HashOutcome.err =>
      { st with events := st.events ++ [Ev.hashError record.path] }
  | HashOutcome.ok result =>
      maybe_commit saveEvery
        (if classify record result = Outcome.Updated then
          { st with
              ledger := update_record st.ledger record.path result.hash
                result.modified,
              changes := st.changes + 1,
              events := st.events ++ [Ev.updated record.path] }
        else if classify record result = Outcome.BitRotDetected then
          { st with
              events := st.events ++
                [Ev.bitRot record.path record.hash result.hash
                  record.modified result.modified],
              exitCode := ExitCode.Failure }
        else
          { st with events := st.events ++ [Ev.unchanged record.path] })

/-- `check_files` (verification pass): submission loop, completion loop,
final unconditional commit. -/
def check_files (saveEvery : Nat) (isFile : String → Bool)
    (hashOut : String → HashOutcome) (records : List Record) : PassState :=
  finishPass
    ((checkPhase1 saveEvery isFile records).2.foldl
      (checkPhase2Step saveEvery hashOut)
      (checkPhase1 saveEvery isFile records).1)

/-- One iteration of the `rglob` loop of `update_files`: skip the database
file and non-files, report and skip paths whose name cannot be encoded
(the `UnicodeEncodeError` from `record_exists`), skip paths that already
have a record, submit the rest. -/
def updatePhase1Step (dbPath : String) (isFile : String → Bool)
    (encodable : String → Bool) (acc : PassState × List String)
    (p : String) : PassState × List String :=
  if p = dbPath ∨ isFile p = false then acc
  else if encodable p = false then
    ({ acc.1 with events := acc.1.events ++ [Ev.encodingError p] }, acc.2)
  else if record_exists acc.1.ledger p then acc
  else (acc.1, acc.2 ++ [p])

/-- The first loop of `update_files` over the recursive traversal. -/
def updatePhase1 (dbPath : String) (isFile : String → Bool)
    (encodable : String → Bool) (ledger : List Record)
    (entries : List String) : PassState × List String :=
  entries.foldl (updatePhase1Step dbPath isFile encodable)
    (initState ledger, [])

/-- One iteration of the `as_completed` loop of `update_files`: skip
silently on `FileNotFoundError`, report and skip on any other error,
otherwise insert the new record and run `maybe_commit`. -/
def updatePhase2Step (saveEvery : Nat) (hashOut : String → HashOutcome)
    (st : PassState) (p : String) : PassState :=
  match hashOut p with
  | HashOutcome.notFound =>
      { st with events := st.events ++ [Ev.skippedVanished p] }
  | HashOutcome.err =>
      { st with events := st.events ++ [Ev.hashError p] }
  | HashOutcome.ok result =>
      maybe_commit saveEvery
        { st with
            ledger := update_record st.ledger p result.hash result.modified,
            changes := st.changes + 1,
            events := st.events ++ [Ev.added p] }

/-- `update_files` (discovery pass): traversal loop, completion loop, final
unconditional commit.  Its `exit_code` is initialised to `Success` and
never written again. -/
def update_files (saveEvery : Nat) (dbPath : String)
    (isFile : String → Bool) (encodable : String → Bool)
    (hashOut : String → HashOutcome) (ledger : List Record)
    (entries : List String) : PassState :=
  finishPass
    ((updatePhase1 dbPath isFile encodable ledger entries).2.foldl
      (updatePhase2Step saveEvery hashOut)
      (updatePhase1 dbPath isFile encodable ledger entries).1)

/-- The observable result of `run` in `core.py`. `discoveryRan` records
whether `update_files` was reached. -/
structure RunResult : Type where
  exitCode : ExitCode
  events : List Ev
  finalLedger : List Record
  discoveryRan : Bool
deriving DecidableEq, Repr

/-- `run` in `core.py`: when `arguments.check` is set, run `check_files`
and return its exit code immediately if it is not `Success`; otherwise run
`update_files` (over the ledger state left by the verification pass) and
return its exit code.  `hoC` and `hoU` are the hash oracles seen by the two
passes (the workers run at different times). -/
def run (check : Bool) (saveEvery : Nat) (dbPath : String)
    (isFile : String → Bool) (encodable : String → Bool)
    (hoC hoU : String → HashOutcome) (records : List Record)
    (entries : List String) : RunResult :=
  if check then
    if (check_files saveEvery isFile hoC records).exitCode
        = ExitCode.Success then
      ⟨(update_files saveEvery dbPath isFile encodable hoU
          (check_files saveEvery isFile hoC records).ledger entries).exitCode,
        (check_files saveEvery isFile hoC records).events ++
          (update_files saveEvery dbPath isFile encodable hoU
            (check_files saveEvery isFile hoC records).ledger entries).events,
        (update_files saveEvery dbPath isFile encodable hoU
          (check_files saveEvery isFile hoC records).ledger entries).ledger,
        true⟩
    else
      ⟨(check_files saveEvery isFile hoC records).exitCode,
        (check_files saveEvery isFile hoC records).events,
        (check_files saveEvery isFile hoC records).ledger,
        false⟩
  else
    ⟨(update_files saveEvery dbPath isFile encodable hoU records
        entries).exitCode,
      (update_files saveEvery dbPath isFile encodable hoU records
        entries).events,
      (update_files saveEvery dbPath isFile encodable hoU records
        entries).ledger,
      true⟩

/-! ### The digest worker (`get_hash` in `core.py`) and CLI defaults -/

/-- Default of `--chunk-size` in `console.py`: `1000 ** 2`. -/
def chunk_size_default : Nat := 1000 ^ 2

/-- Default of `--save-every` in `console.py`. -/
def save_every_default : Nat := 1000

/-- Default of `--hash-algorithm` in `console.py`. -/
def hash_algorithm_default : String := "sha1"

/-- The file as seen by one `get_hash` call: the bytes the chunked read
returns and the `st_mtime` the preceding `stat` returns. -/
structure FileSnapshot : Type where
  content : List Nat
  mtime : Int

/-- The chunks returned by the `while chunk := file.read(chunk_size)` loop:
successive pieces of at most `chunkSize` bytes. -/
def chunksOf (chunkSize : Nat) (content : List Nat) : List (List Nat) :=
  if h : chunkSize = 0 ∨ content = [] then []
  else
    content.take chunkSize :: chunksOf chunkSize (content.drop chunkSize)
termination_by content.length
decreasing_by
  push_neg at h
  simp only [List.length_drop]
  have h1 : 0 < content.length := List.length_pos.mpr h.2
  have h2 : 0 < chunkSize := Nat.pos_of_ne_zero h.1
  omega

/-- `get_hash` in `core.py`: stat the file for `st_mtime` first, then read
it in chunks feeding the streaming digest accumulator (`hash_.update`);
`hashFn` stands for the digest of all bytes fed to the accumulator. -/
def get_hash (hashFn : List Nat → List Nat) (chunkSize : Nat)
    (file : FileSnapshot) : HashResult :=
  ⟨hashFn ((chunksOf chunkSize file.content).foldl
      (fun acc chunk => acc ++ chunk) []),
    file.mtime⟩

/-- The filesystem operations of `get_hash`, in program order. -/
inductive FsOp : Type where
  | statFile : FsOp
  | openFile : FsOp
  | readChunk : FsOp
  | closeFile : FsOp
deriving DecidableEq, Repr

/-- The syscall trace of one `get_hash` call: `path.stat()`, then
`path.open("rb")`, then one `read` per chunk plus the final empty `read`
that ends the loop, then the close of the `with` block. -/
def getHashOps (chunkSize : Nat) (content : List Nat) : List FsOp :=
  FsOp.statFile :: FsOp.openFile ::
    ((chunksOf chunkSize content).map (fun _ => FsOp.readChunk) ++
      [FsOp.readChunk, FsOp.closeFile])

/-! ### Derived notions used by the checkpointing claim -/

/-- Running count of uncommitted mutations along a trace, with its maximum:
a commit resets the count, a mutation increments it. -/
def pendStep (acc : Nat × Nat) (e : Ev) : Nat × Nat :=
  if e = Ev.commit then (0, acc.2)
  else if isMutation e then (acc.1 + 1, max acc.2 (acc.1 + 1))
  else acc

/-- The largest number of uncommitted mutations ever pending along a trace. -/
def maxPending (trace : List Ev) : Nat :=
  (trace.foldl pendStep (0, 0)).2

/-- The ledger's primary-key property: all paths distinct. -/
def pathsNodup (l : List Record) : Prop :=
  (l.map Record.path).Nodup

instance (l : List Record) : Decidable (pathsNodup l) := by
  unfold pathsNodup; infer_instance

/-! ### Basic lemmas about the ledger operations and pass-state helpers -/

theorem mem_delete_record {l : List Record} {p : String} {x : Record} :
    x ∈ delete_record l p ↔ x ∈ l ∧ x.path ≠ p := by
  simp [delete_record]

theorem mem_update_record {l : List Record} {p : String} {h : List Nat}
    {m : Int} {x : Record} :
    x ∈ update_record l p h m ↔ (x ∈ l ∧ x.path ≠ p) ∨ x = ⟨p, h, m⟩ := by
  simp [update_record, mem_delete_record]

theorem record_exists_iff {l : List Record} {p : String} :
    record_exists l p = true ↔ ∃ r ∈ l, r.path = p := by
  simp [record_exists]

theorem record_exists_update_self (l : List Record) (p : String)
    (h : List Nat) (m : Int) :
    record_exists (update_record l p h m) p = true := by
  rw [record_exists_iff]
  exact ⟨⟨p, h, m⟩, by simp [mem_update_record], rfl⟩

theorem record_exists_update_record (l : List Record) (p q : String)
    (h : List Nat) (m : Int) (hq : record_exists l q = true) :
    record_exists (update_record l p h m) q = true := by
  by_cases hpq : q = p
  · subst hpq; exact record_exists_update_self l q h m
  · rw [record_exists_iff] at hq ⊢
    obtain ⟨r, hr, hrp⟩ := hq
    exact ⟨r, mem_update_record.mpr (Or.inl ⟨hr, by rw [hrp]; exact hpq⟩), hrp⟩

theorem delete_record_pathsNodup {l : List Record} (p : String)
    (h : pathsNodup l) : pathsNodup (delete_record l p) := by
  unfold pathsNodup at h ⊢
  exact h.sublist (List.Sublist.map Record.path (List.filter_sublist l))

theorem update_record_pathsNodup {l : List Record} (p : String)
    (hs : List Nat) (m : Int) (h : pathsNodup l) :
    pathsNodup (update_record l p hs m) := by
  unfold pathsNodup update_record
  rw [List.map_append, List.nodup_append]
  refine ⟨delete_record_pathsNodup p h, List.nodup_singleton _, ?_⟩
  intro a ha hb
  simp only [List.map_cons, List.map_nil, List.mem_singleton] at hb
  subst hb
  simp only [List.mem_map] at ha
  obtain ⟨r, hr, hrp⟩ := ha
  rw [mem_delete_record] at hr
  exact hr.2 hrp

theorem pathsNodup_unique {l : List Record} (hn : pathsNodup l) {x y : Record}
    (hx : x ∈ l) (hy : y ∈ l) (hp : x.path = y.path) : x = y := by
  induction l with
  | nil => cases hx
  | cons a t ih =>
    unfold pathsNodup at hn
    rw [List.map_cons, List.nodup_cons] at hn
    rcases List.mem_cons.mp hx with hx1 | hx1 <;>
      rcases List.mem_cons.mp hy with hy1 | hy1
    · rw [hx1, hy1]
    · exfalso; apply hn.1; rw [← hx1, hp]; exact List.mem_map_of_mem _ hy1
    · exfalso; apply hn.1; rw [← hy1, ← hp]; exact List.mem_map_of_mem _ hx1
    · exact ih hn.2 hx1 hy1

theorem pathsNodup_split {l₁ l₂ : List Record} {r : Record}
    (hn : pathsNodup (l₁ ++ r :: l₂)) :
    (∀ r' ∈ l₁, r'.path ≠ r.path) ∧ ∀ r' ∈ l₂, r'.path ≠ r.path := by
  unfold pathsNodup at hn
  rw [List.map_append, List.map_cons, List.nodup_append] at hn
  obtain ⟨_, hn2, hdisj⟩ := hn
  rw [List.nodup_cons] at hn2
  constructor
  · intro r' hr' heq
    exact hdisj (List.mem_map_of_mem _ hr') (by rw [heq]; exact List.mem_cons_self _ _)
  · intro r' hr' heq
    exact hn2.1 (heq ▸ List.mem_map_of_mem _ hr')

theorem maybe_commit_ledger (se : Nat) (st : PassState) :
    (maybe_commit se st).ledger = st.ledger := by
  unfold maybe_commit; split <;> rfl

theorem maybe_commit_exitCode (se : Nat) (st : PassState) :
    (maybe_commit se st).exitCode = st.exitCode := by
  unfold maybe_commit; split <;> rfl

theorem maybe_commit_events_mono {se : Nat} {st : PassState} {e : Ev}
    (h : e ∈ st.events) : e ∈ (maybe_commit se st).events := by
  unfold maybe_commit; split
  · exact List.mem_append_left _ h
  · exact h

theorem maybe_commit_events_sub {se : Nat} {st : PassState} {e : Ev}
    (h : e ∈ (maybe_commit se st).events) : e ∈ st.events ∨ e = Ev.commit := by
  unfold maybe_commit at h; split at h
  · rcases List.mem_append.mp h with h1 | h1
    · exact Or.inl h1
    · exact Or.inr (List.mem_singleton.mp h1)
  · exact Or.inl h

theorem finishPass_ledger (st : PassState) :
    (finishPass st).ledger = st.ledger := rfl

theorem finishPass_exitCode (st : PassState) :
    (finishPass st).exitCode = st.exitCode := rfl

theorem finishPass_events_mono {st : PassState} {e : Ev}
    (h : e ∈ st.events) : e ∈ (finishPass st).events :=
  List.mem_append_left _ h

theorem finishPass_events_sub {st : PassState} {e : Ev}
    (h : e ∈ (finishPass st).events) : e ∈ st.events ∨ e = Ev.commit := by
  rcases List.mem_append.mp h with h1 | h1
  · exact Or.inl h1
  · exact Or.inr (List.mem_singleton.mp h1)

/-! ### Lemmas about `classify` -/

theorem classify_cases (r : Record) (hr : HashResult) :
    classify r hr = Outcome.Updated ∨
    classify r hr = Outcome.BitRotDetected ∨
    classify r hr = Outcome.Unchanged := by
  unfold classify; split
  · exact Or.inl rfl
  · split
    · exact Or.inr (Or.inl rfl)
    · exact Or.inr (Or.inr rfl)

theorem classify_eq_updated_iff (r : Record) (hr : HashResult) :
    classify r hr = Outcome.Updated ↔ r.modified ≠ hr.modified := by
  unfold classify
  by_cases h1 : r.modified = hr.modified <;> by_cases h2 : r.hash = hr.hash <;>
    simp [h1, h2]

theorem classify_eq_bitrot_iff (r : Record) (hr : HashResult) :
    classify r hr = Outcome.BitRotDetected ↔
      r.modified = hr.modified ∧ r.hash ≠ hr.hash := by
  unfold classify
  by_cases h1 : r.modified = hr.modified <;> by_cases h2 : r.hash = hr.hash <;>
    simp [h1, h2]

theorem classify_eq_unchanged_iff (r : Record) (hr : HashResult) :
    classify r hr = Outcome.Unchanged ↔
      r.modified = hr.modified ∧ r.hash = hr.hash := by
  unfold classify
  by_cases h1 : r.modified = hr.modified <;> by_cases h2 : r.hash = hr.hash <;>
    simp [h1, h2]

/-! ### The submission loop of the verification pass -/

theorem checkPhase1_fold_exitCode (se : Nat) (isFile : String → Bool)
    (records : List Record) (st : PassState) (subs : List Record) :
    ((records.foldl (checkPhase1Step se isFile) (st, subs)).1).exitCode
      = st.exitCode := by
  induction records generalizing st subs with
  | nil => rfl
  | cons r rs ih =>
    rw [List.foldl_cons]
    simp only [checkPhase1Step]
    by_cases hf : isFile r.path = true
    · rw [if_pos hf, ih, maybe_commit_exitCode]
    · rw [if_neg hf]
      exact ih _ _

theorem checkPhase1_fold_subs (se : Nat) (isFile : String → Bool)
    (records : List Record) (st : PassState) (subs : List Record) :
    (records.foldl (checkPhase1Step se isFile) (st, subs)).2
      = subs ++ records.filter (fun r => isFile r.path) := by
  induction records generalizing st subs with
  | nil => simp
  | cons r rs ih =>
    rw [List.foldl_cons]
    simp only [checkPhase1Step]
    by_cases hf : isFile r.path = true
    · rw [if_pos hf, ih, List.filter_cons, if_pos hf]
      simp
    · rw [if_neg hf, ih, List.filter_cons, if_neg hf]

theorem checkPhase1_fold_ledger (se : Nat) (isFile : String → Bool)
    (records : List Record) (st : PassState) (subs : List Record) :
    ((records.foldl (checkPhase1Step se isFile) (st, subs)).1).ledger
      = st.ledger.filter
          (fun x => records.all fun r => isFile r.path || decide (x.path ≠ r.path)) := by
  induction records generalizing st subs with
  | nil => simp
  | cons r rs ih =>
    rw [List.foldl_cons]
    simp only [checkPhase1Step]
    by_cases hf : isFile r.path = true
    · rw [if_pos hf, ih, maybe_commit_ledger]
      apply List.filter_congr
      intro x _
      simp [hf]
    · rw [if_neg hf, ih]
      have hb : isFile r.path = false := Bool.eq_false_iff.mpr hf
      simp only [delete_record, List.filter_filter]
      apply List.filter_congr
      intro x _
      rw [List.all_cons, hb]
      simp [Bool.and_comm]

theorem checkPhase1_fold_events (se : Nat) (isFile : String → Bool)
    (records : List Record) (st : PassState) (subs : List Record) {e : Ev}
    (h : e ∈ ((records.foldl (checkPhase1Step se isFile) (st, subs)).1).events) :
    e ∈ st.events ∨ (∃ p, e = Ev.removed p) ∨ e = Ev.commit := by
  induction records generalizing st subs with
  | nil => exact Or.inl h
  | cons r rs ih =>
    rw [List.foldl_cons] at h
    simp only [checkPhase1Step] at h
    by_cases hf : isFile r.path = true
    · rw [if_pos hf] at h
      rcases ih _ _ h with h1 | h1
      · rcases maybe_commit_events_sub h1 with h2 | h2
        · exact Or.inl h2
        · exact Or.inr (Or.inr h2)
      · exact Or.inr h1
    · rw [if_neg hf] at h
      rcases ih _ _ h with h1 | h1
      · rcases List.mem_append.mp h1 with h2 | h2
        · exact Or.inl h2
        · exact Or.inr (Or.inl ⟨r.path, List.mem_singleton.mp h2⟩)
      · exact Or.inr h1

theorem checkPhase1_fold_events_mono (se : Nat) (isFile : String → Bool)
    (records : List Record) (st : PassState) (subs : List Record) {e : Ev}
    (h : e ∈ st.events) :
    e ∈ ((records.foldl (checkPhase1Step se isFile) (st, subs)).1).events := by
  induction records generalizing st subs with
  | nil => exact h
  | cons r rs ih =>
    rw [List.foldl_cons]
    simp only [checkPhase1Step]
    by_cases hf : isFile r.path = true
    · rw [if_pos hf]
      exact ih _ _ (maybe_commit_events_mono h)
    · rw [if_neg hf]
      exact ih _ _ (List.mem_append_left _ h)

theorem checkPhase1_subs (se : Nat) (isFile : String → Bool)
    (records : List Record) :
    (checkPhase1 se isFile records).2
      = records.filter (fun r => isFile r.path) := by
  unfold checkPhase1
  rw [checkPhase1_fold_subs]
  simp [initState]

theorem checkPhase1_ledger (se : Nat) (isFile : String → Bool)
    (records : List Record) :
    ((checkPhase1 se isFile records).1).ledger
      = records.filter
          (fun x => records.all fun r => isFile r.path || decide (x.path ≠ r.path)) := by
  unfold checkPhase1
  rw [checkPhase1_fold_ledger]
  rfl

theorem checkPhase1_mem_ledger (se : Nat) (isFile : String → Bool)
    (records : List Record) {r : Record} (hmem : r ∈ records)
    (hf : isFile r.path = true) :
    r ∈ ((checkPhase1 se isFile records).1).ledger := by
  rw [checkPhase1_ledger]
  rw [List.mem_filter]
  refine ⟨hmem, ?_⟩
  rw [List.all_eq_true]
  intro r' _
  by_cases hp : r.path = r'.path
  · rw [← hp, hf]; rfl
  · simp [hp]

theorem checkPhase1_ledger_sub (se : Nat) (isFile : String → Bool)
    (records : List Record) {x : Record}
    (h : x ∈ ((checkPhase1 se isFile records).1).ledger) :
    x ∈ records := by
  rw [checkPhase1_ledger] at h
  exact (List.mem_filter.mp h).1

theorem checkPhase1_ledger_isFile (se : Nat) (isFile : String → Bool)
    (records : List Record) {x : Record}
    (h : x ∈ ((checkPhase1 se isFile records).1).ledger) :
    isFile x.path = true := by
  rw [checkPhase1_ledger] at h
  rw [List.mem_filter, List.all_eq_true] at h
  have := h.2 x h.1
  simpa using this

theorem checkPhase1_ledger_nodup (se : Nat) (isFile : String → Bool)
    (records : List Record) (hn : pathsNodup records) :
    pathsNodup ((checkPhase1 se isFile records).1).ledger := by
  rw [checkPhase1_ledger]
  unfold pathsNodup at hn ⊢
  exact hn.sublist (List.Sublist.map Record.path (List.filter_sublist records))

/-! ### The traversal loop of the discovery pass -/

/-- Entries that reach `record_exists` but fail the encoding check. -/
def badName (dbPath : String) (isFile encodable : String → Bool)
    (p : String) : Bool :=
  !decide (p = dbPath) && isFile p && !encodable p

/-- Entries submitted for hashing by the discovery pass: eligible regular
files with no existing record. -/
def eligibleNew (dbPath : String) (isFile encodable : String → Bool)
    (ledger : List Record) (p : String) : Bool :=
  !decide (p = dbPath) && isFile p && encodable p && !record_exists ledger p

theorem updatePhase1_fold (dbPath : String) (isFile encodable : String → Bool)
    (entries : List String) (st : PassState) (subs : List String) :
    entries.foldl (updatePhase1Step dbPath isFile encodable) (st, subs)
      = ({ st with events := st.events ++
            ((entries.filter (badName dbPath isFile encodable)).map
              Ev.encodingError) },
          subs ++ entries.filter
            (eligibleNew dbPath isFile encodable st.ledger)) := by
  induction entries generalizing st subs with
  | nil => simp
  | cons p ps ih =>
    rw [List.foldl_cons]
    by_cases h1 : p = dbPath ∨ isFile p = false
    · have hb : badName dbPath isFile encodable p = false := by
        rcases h1 with h1 | h1 <;> simp [badName, h1]
      have he : eligibleNew dbPath isFile encodable st.ledger p = false := by
        rcases h1 with h1 | h1 <;> simp [eligibleNew, h1]
      simp only [updatePhase1Step, if_pos h1]
      rw [ih, List.filter_cons, List.filter_cons, hb, he]
      simp
    · have hp : ¬p = dbPath := fun hc => h1 (Or.inl hc)
      have hf : isFile p = true := by
        rcases Bool.eq_false_or_eq_true (isFile p) with hc | hc
        · exact hc
        · exact absurd (Or.inr hc) h1
      simp only [updatePhase1Step, if_neg h1]
      by_cases h2 : encodable p = false
      · have hb : badName dbPath isFile encodable p = true := by
          simp [badName, hp, hf, h2]
        have he : eligibleNew dbPath isFile encodable st.ledger p = false := by
          simp [eligibleNew, h2]
        rw [if_pos h2, ih, List.filter_cons, List.filter_cons, hb, he]
        simp
      · have h2' : encodable p = true := by
          rcases Bool.eq_false_or_eq_true (encodable p) with hc | hc
          · exact hc
          · exact absurd hc h2
        rw [if_neg h2]
        by_cases h3 : record_exists st.ledger p = true
        · have hb : badName dbPath isFile encodable p = false := by
            simp [badName, h2']
          have he : eligibleNew dbPath isFile encodable st.ledger p = false := by
            simp [eligibleNew, h3]
          rw [if_pos h3, ih, List.filter_cons, List.filter_cons, hb, he]
          simp
        · have h3' : record_exists st.ledger p = false := by
            rcases Bool.eq_false_or_eq_true (record_exists st.ledger p) with hc | hc
            · exact absurd hc h3
            · exact hc
          have hb : badName dbPath isFile encodable p = false := by
            simp [badName, h2']
          have he : eligibleNew dbPath isFile encodable st.ledger p = true := by
            simp [eligibleNew, hp, hf, h2', h3']
          rw [if_neg h3, ih, List.filter_cons, List.filter_cons, hb, he]
          simp

theorem updatePhase1_eq (dbPath : String) (isFile encodable : String → Bool)
    (ledger : List Record) (entries : List String) :
    updatePhase1 dbPath isFile encodable ledger entries
      = ({ initState ledger with events :=
            ((entries.filter (badName dbPath isFile encodable)).map
              Ev.encodingError) },
          entries.filter (eligibleNew dbPath isFile encodable ledger)) := by
  unfold updatePhase1
  rw [updatePhase1_fold]
  simp [initState]


/-! ### The completion loop of the verification pass -/

theorem checkPhase2Step_exit (se : Nat) (ho : String → HashOutcome)
    (st : PassState) (r : Record) :
    (checkPhase2Step se ho st r).exitCode = st.exitCode ∨
      (checkPhase2Step se ho st r).exitCode = ExitCode.Failure := by
  cases hho : ho r.path with
  | notFound => simp [checkPhase2Step, hho]
  | err => simp [checkPhase2Step, hho]
  | ok hr =>
    simp only [checkPhase2Step, hho]
    rw [maybe_commit_exitCode]
    by_cases hc1 : classify r hr = Outcome.Updated
    · rw [if_pos hc1]; exact Or.inl rfl
    · rw [if_neg hc1]
      by_cases hc2 : classify r hr = Outcome.BitRotDetected
      · rw [if_pos hc2]; exact Or.inr rfl
      · rw [if_neg hc2]; exact Or.inl rfl

theorem checkPhase2Step_failure {se : Nat} {ho : String → HashOutcome}
    {st : PassState} (r : Record) (h : st.exitCode = ExitCode.Failure) :
    (checkPhase2Step se ho st r).exitCode = ExitCode.Failure := by
  rcases checkPhase2Step_exit se ho st r with h1 | h1
  · rw [h1, h]
  · exact h1

theorem checkPhase2_fold_failure {se : Nat} {ho : String → HashOutcome}
    (l : List Record) (st : PassState) (h : st.exitCode = ExitCode.Failure) :
    (l.foldl (checkPhase2Step se ho) st).exitCode = ExitCode.Failure := by
  induction l generalizing st with
  | nil => exact h
  | cons r rs ih => exact ih _ (checkPhase2Step_failure r h)

theorem checkPhase2Step_events_mono {se : Nat} {ho : String → HashOutcome}
    {st : PassState} {r : Record} {e : Ev} (h : e ∈ st.events) :
    e ∈ (checkPhase2Step se ho st r).events := by
  cases hho : ho r.path with
  | notFound =>
    simp only [checkPhase2Step, hho]
    exact List.mem_append_left _ h
  | err =>
    simp only [checkPhase2Step, hho]
    exact List.mem_append_left _ h
  | ok hr =>
    simp only [checkPhase2Step, hho]
    apply maybe_commit_events_mono
    split
    · exact List.mem_append_left _ h
    · split
      · exact List.mem_append_left _ h
      · exact List.mem_append_left _ h

theorem checkPhase2_fold_events_mono {se : Nat} {ho : String → HashOutcome}
    (l : List Record) (st : PassState) {e : Ev} (h : e ∈ st.events) :
    e ∈ (l.foldl (checkPhase2Step se ho) st).events := by
  induction l generalizing st with
  | nil => exact h
  | cons r rs ih => exact ih _ (checkPhase2Step_events_mono h)

/-- The ways one completed-future iteration of the verification pass can
generate an event for record `r`. -/
def stepCause (ho : String → HashOutcome) (r : Record) (e : Ev) : Prop :=
  (e = Ev.skippedVanished r.path ∧ ho r.path = HashOutcome.notFound) ∨
  (e = Ev.hashError r.path ∧ ho r.path = HashOutcome.err) ∨
  ∃ hr, ho r.path = HashOutcome.ok hr ∧
    ((e = Ev.updated r.path ∧ classify r hr = Outcome.Updated) ∨
     (e = Ev.bitRot r.path r.hash hr.hash r.modified hr.modified ∧
       classify r hr = Outcome.BitRotDetected) ∨
     (e = Ev.unchanged r.path ∧ classify r hr = Outcome.Unchanged))

theorem checkPhase2Step_events_sub {se : Nat} {ho : String → HashOutcome}
    {st : PassState} {r : Record} {e : Ev}
    (h : e ∈ (checkPhase2Step se ho st r).events) :
    e ∈ st.events ∨ e = Ev.commit ∨ stepCause ho r e := by
  cases hho : ho r.path with
  | notFound =>
    simp only [checkPhase2Step, hho] at h
    rcases List.mem_append.mp h with h1 | h1
    · exact Or.inl h1
    · exact Or.inr (Or.inr (Or.inl ⟨List.mem_singleton.mp h1, hho⟩))
  | err =>
    simp only [checkPhase2Step, hho] at h
    rcases List.mem_append.mp h with h1 | h1
    · exact Or.inl h1
    · exact Or.inr (Or.inr (Or.inr (Or.inl ⟨List.mem_singleton.mp h1, hho⟩)))
  | ok hr =>
    simp only [checkPhase2Step, hho] at h
    rcases maybe_commit_events_sub h with h1 | h1
    · by_cases hc1 : classify r hr = Outcome.Updated
      · rw [if_pos hc1] at h1
        rcases List.mem_append.mp h1 with h2 | h2
        · exact Or.inl h2
        · exact Or.inr (Or.inr (Or.inr (Or.inr
            ⟨hr, hho, Or.inl ⟨List.mem_singleton.mp h2, hc1⟩⟩)))
      · rw [if_neg hc1] at h1
        by_cases hc2 : classify r hr = Outcome.BitRotDetected
        · rw [if_pos hc2] at h1
          rcases List.mem_append.mp h1 with h2 | h2
          · exact Or.inl h2
          · exact Or.inr (Or.inr (Or.inr (Or.inr
              ⟨hr, hho, Or.inr (Or.inl ⟨List.mem_singleton.mp h2, hc2⟩)⟩)))
        · rw [if_neg hc2] at h1
          have hc3 : classify r hr = Outcome.Unchanged := by
            rcases classify_cases r hr with hc | hc | hc
            · exact absurd hc hc1
            · exact absurd hc hc2
            · exact hc
          rcases List.mem_append.mp h1 with h2 | h2
          · exact Or.inl h2
          · exact Or.inr (Or.inr (Or.inr (Or.inr
              ⟨hr, hho, Or.inr (Or.inr ⟨List.mem_singleton.mp h2, hc3⟩)⟩)))
    · exact Or.inr (Or.inl h1)

theorem checkPhase2_fold_events_sub {se : Nat} {ho : String → HashOutcome}
    (l : List Record) (st : PassState) {e : Ev}
    (h : e ∈ (l.foldl (checkPhase2Step se ho) st).events) :
    e ∈ st.events ∨ e = Ev.commit ∨ ∃ r ∈ l, stepCause ho r e := by
  induction l generalizing st with
  | nil => exact Or.inl h
  | cons r rs ih =>
    rw [List.foldl_cons] at h
    rcases ih _ h with h1 | h1 | ⟨r', hr', hc⟩
    · rcases checkPhase2Step_events_sub h1 with h2 | h2 | h2
      · exact Or.inl h2
      · exact Or.inr (Or.inl h2)
      · exact Or.inr (Or.inr ⟨r, List.mem_cons_self _ _, h2⟩)
    · exact Or.inr (Or.inl h1)
    · exact Or.inr (Or.inr ⟨r', List.mem_cons_of_mem _ hr', hc⟩)

theorem checkPhase2Step_ledger (se : Nat) (ho : String → HashOutcome)
    (st : PassState) (r : Record) :
    (checkPhase2Step se ho st r).ledger = st.ledger ∨
      ∃ hr, ho r.path = HashOutcome.ok hr ∧
        classify r hr = Outcome.Updated ∧
        (checkPhase2Step se ho st r).ledger
          = update_record st.ledger r.path hr.hash hr.modified := by
  cases hho : ho r.path with
  | notFound => simp [checkPhase2Step, hho]
  | err => simp [checkPhase2Step, hho]
  | ok hr =>
    simp only [checkPhase2Step, hho]
    rw [maybe_commit_ledger]
    by_cases hc1 : classify r hr = Outcome.Updated
    · rw [if_pos hc1]
      exact Or.inr ⟨hr, rfl, hc1, rfl⟩
    · rw [if_neg hc1]
      by_cases hc2 : classify r hr = Outcome.BitRotDetected
      · rw [if_pos hc2]; exact Or.inl rfl
      · rw [if_neg hc2]; exact Or.inl rfl

theorem checkPhase2_fold_preserved {se : Nat} {ho : String → HashOutcome}
    (l : List Record) (st : PassState) {x : Record} (hx : x ∈ st.ledger)
    (hl : ∀ r ∈ l, r.path ≠ x.path) :
    x ∈ (l.foldl (checkPhase2Step se ho) st).ledger := by
  induction l generalizing st with
  | nil => exact hx
  | cons r rs ih =>
    rw [List.foldl_cons]
    apply ih
    · rcases checkPhase2Step_ledger se ho st r with h1 | ⟨hr, _, _, h1⟩
      · rw [h1]; exact hx
      · rw [h1]
        apply mem_update_record.mpr
        exact Or.inl ⟨hx, fun hc => hl r (List.mem_cons_self _ _) hc.symm⟩
    · exact fun r' hr' => hl r' (List.mem_cons_of_mem _ hr')

theorem checkPhase2_fold_ledger_sub {se : Nat} {ho : String → HashOutcome}
    (l : List Record) (st : PassState) {x : Record}
    (hx : x ∈ (l.foldl (checkPhase2Step se ho) st).ledger) :
    x ∈ st.ledger ∨ ∃ hr, ho x.path = HashOutcome.ok hr ∧
      x.hash = hr.hash ∧ x.modified = hr.modified := by
  induction l generalizing st with
  | nil => exact Or.inl hx
  | cons r rs ih =>
    rw [List.foldl_cons] at hx
    rcases ih _ hx with h1 | h1
    · rcases checkPhase2Step_ledger se ho st r with h2 | ⟨hr, hho, _, h2⟩
      · rw [h2] at h1; exact Or.inl h1
      · rw [h2] at h1
        rcases mem_update_record.mp h1 with ⟨h3, _⟩ | h3
        · exact Or.inl h3
        · subst h3
          exact Or.inr ⟨hr, hho, rfl, rfl⟩
    · exact Or.inr h1

theorem checkPhase2_fold_nodup {se : Nat} {ho : String → HashOutcome}
    (l : List Record) (st : PassState) (hn : pathsNodup st.ledger) :
    pathsNodup (l.foldl (checkPhase2Step se ho) st).ledger := by
  induction l generalizing st with
  | nil => exact hn
  | cons r rs ih =>
    rw [List.foldl_cons]
    apply ih
    rcases checkPhase2Step_ledger se ho st r with h1 | ⟨hr, _, _, h1⟩
    · rw [h1]; exact hn
    · rw [h1]; exact update_record_pathsNodup _ _ _ hn

theorem checkPhase2Step_event_self (se : Nat) (ho : String → HashOutcome)
    (st : PassState) (r : Record) :
    ∃ e ∈ (checkPhase2Step se ho st r).events, evPath e = some r.path := by
  cases hho : ho r.path with
  | notFound =>
    refine ⟨Ev.skippedVanished r.path, ?_, rfl⟩
    simp [checkPhase2Step, hho]
  | err =>
    refine ⟨Ev.hashError r.path, ?_, rfl⟩
    simp [checkPhase2Step, hho]
  | ok hr =>
    simp only [checkPhase2Step, hho]
    by_cases hc1 : classify r hr = Outcome.Updated
    · refine ⟨Ev.updated r.path, ?_, rfl⟩
      rw [if_pos hc1]
      exact maybe_commit_events_mono (List.mem_append_right _ (List.mem_singleton_self _))
    · rw [if_neg hc1]
      by_cases hc2 : classify r hr = Outcome.BitRotDetected
      · refine ⟨Ev.bitRot r.path r.hash hr.hash r.modified hr.modified, ?_, rfl⟩
        rw [if_pos hc2]
        exact maybe_commit_events_mono (List.mem_append_right _ (List.mem_singleton_self _))
      · refine ⟨Ev.unchanged r.path, ?_, rfl⟩
        rw [if_neg hc2]
        exact maybe_commit_events_mono (List.mem_append_right _ (List.mem_singleton_self _))

theorem checkPhase2_fold_event_exists {se : Nat} {ho : String → HashOutcome}
    (l : List Record) (st : PassState) {r : Record} (h : r ∈ l) :
    ∃ e ∈ (l.foldl (checkPhase2Step se ho) st).events,
      evPath e = some r.path := by
  induction l generalizing st with
  | nil => cases h
  | cons a t ih =>
    rw [List.foldl_cons]
    rcases List.mem_cons.mp h with h1 | h1
    · subst h1
      obtain ⟨e, he, hp⟩ := checkPhase2Step_event_self se ho st r
      exact ⟨e, checkPhase2_fold_events_mono t _ he, hp⟩
    · exact ih _ h1

/-- Whether an exit code/event trace pair satisfies: the code is `Failure`
exactly when a corruption report was emitted. -/
def exitInvP (x : ExitCode) (evs : List Ev) : Prop :=
  x = ExitCode.Failure ↔ ∃ e ∈ evs, isBitRot e = true

/-- Whether `exit_code` has been set to `Failure` is exactly whether a
corruption report was emitted. -/
def exitInv (st : PassState) : Prop :=
  exitInvP st.exitCode st.events

theorem exists_bitRot_append {evs l2 : List Ev}
    (h2 : ∀ e ∈ l2, isBitRot e = false) :
    (∃ e ∈ evs ++ l2, isBitRot e = true) ↔ ∃ e ∈ evs, isBitRot e = true := by
  constructor
  · rintro ⟨e, he, hb⟩
    rcases List.mem_append.mp he with h | h
    · exact ⟨e, h, hb⟩
    · rw [h2 e h] at hb; cases hb
  · rintro ⟨e, he, hb⟩
    exact ⟨e, List.mem_append_left _ he, hb⟩

theorem exitInvP_append {x : ExitCode} {evs l2 : List Ev} (h : exitInvP x evs)
    (h2 : ∀ e ∈ l2, isBitRot e = false) : exitInvP x (evs ++ l2) := by
  unfold exitInvP at h ⊢
  rw [exists_bitRot_append h2]
  exact h

theorem singleton_no_bitRot {e : Ev} (h : isBitRot e = false) :
    ∀ e' ∈ [e], isBitRot e' = false := by
  intro e' he'
  rw [List.mem_singleton.mp he']
  exact h

theorem maybe_commit_exitInv {se : Nat} {st : PassState} (h : exitInv st) :
    exitInv (maybe_commit se st) := by
  unfold maybe_commit
  split
  · show exitInvP st.exitCode (st.events ++ [Ev.commit])
    exact exitInvP_append h (singleton_no_bitRot rfl)
  · exact h

theorem checkPhase2Step_exitInv {se : Nat} {ho : String → HashOutcome}
    {st : PassState} (r : Record) (h : exitInv st) :
    exitInv (checkPhase2Step se ho st r) := by
  cases hho : ho r.path with
  | notFound =>
    simp only [checkPhase2Step, hho]
    show exitInvP st.exitCode (st.events ++ [Ev.skippedVanished r.path])
    exact exitInvP_append h (singleton_no_bitRot rfl)
  | err =>
    simp only [checkPhase2Step, hho]
    show exitInvP st.exitCode (st.events ++ [Ev.hashError r.path])
    exact exitInvP_append h (singleton_no_bitRot rfl)
  | ok hr =>
    simp only [checkPhase2Step, hho]
    apply maybe_commit_exitInv
    by_cases hc1 : classify r hr = Outcome.Updated
    · rw [if_pos hc1]
      show exitInvP st.exitCode (st.events ++ [Ev.updated r.path])
      exact exitInvP_append h (singleton_no_bitRot rfl)
    · rw [if_neg hc1]
      by_cases hc2 : classify r hr = Outcome.BitRotDetected
      · rw [if_pos hc2]
        show exitInvP ExitCode.Failure (st.events ++
          [Ev.bitRot r.path r.hash hr.hash r.modified hr.modified])
        constructor
        · intro _
          refine ⟨Ev.bitRot r.path r.hash hr.hash r.modified hr.modified,
            ?_, rfl⟩
          exact List.mem_append_right _ (List.mem_singleton_self _)
        · intro _; rfl
      · rw [if_neg hc2]
        show exitInvP st.exitCode (st.events ++ [Ev.unchanged r.path])
        exact exitInvP_append h (singleton_no_bitRot rfl)

theorem checkPhase2_fold_exitInv {se : Nat} {ho : String → HashOutcome}
    (l : List Record) (st : PassState) (h : exitInv st) :
    exitInv (l.foldl (checkPhase2Step se ho) st) := by
  induction l generalizing st with
  | nil => exact h
  | cons r rs ih => exact ih _ (checkPhase2Step_exitInv r h)


/-! ### The completion loop of the discovery pass -/

theorem updatePhase2Step_exit (se : Nat) (ho : String → HashOutcome)
    (st : PassState) (p : String) :
    (updatePhase2Step se ho st p).exitCode = st.exitCode := by
  cases hho : ho p with
  | notFound => simp [updatePhase2Step, hho]
  | err => simp [updatePhase2Step, hho]
  | ok hr =>
    simp only [updatePhase2Step, hho]
    rw [maybe_commit_exitCode]

theorem updatePhase2_fold_exit (se : Nat) (ho : String → HashOutcome)
    (l : List String) (st : PassState) :
    (l.foldl (updatePhase2Step se ho) st).exitCode = st.exitCode := by
  induction l generalizing st with
  | nil => rfl
  | cons p ps ih =>
    rw [List.foldl_cons, ih, updatePhase2Step_exit]

theorem updatePhase2Step_events_mono {se : Nat} {ho : String → HashOutcome}
    {st : PassState} {p : String} {e : Ev} (h : e ∈ st.events) :
    e ∈ (updatePhase2Step se ho st p).events := by
  cases hho : ho p with
  | notFound =>
    simp only [updatePhase2Step, hho]
    exact List.mem_append_left _ h
  | err =>
    simp only [updatePhase2Step, hho]
    exact List.mem_append_left _ h
  | ok hr =>
    simp only [updatePhase2Step, hho]
    exact maybe_commit_events_mono (List.mem_append_left _ h)

theorem updatePhase2_fold_events_mono {se : Nat} {ho : String → HashOutcome}
    (l : List String) (st : PassState) {e : Ev} (h : e ∈ st.events) :
    e ∈ (l.foldl (updatePhase2Step se ho) st).events := by
  induction l generalizing st with
  | nil => exact h
  | cons p ps ih => exact ih _ (updatePhase2Step_events_mono h)

theorem updatePhase2Step_events_sub {se : Nat} {ho : String → HashOutcome}
    {st : PassState} {p : String} {e : Ev}
    (h : e ∈ (updatePhase2Step se ho st p).events) :
    e ∈ st.events ∨ e = Ev.commit ∨ e = Ev.skippedVanished p ∨
      e = Ev.hashError p ∨ e = Ev.added p := by
  cases hho : ho p with
  | notFound =>
    simp only [updatePhase2Step, hho] at h
    rcases List.mem_append.mp h with h1 | h1
    · exact Or.inl h1
    · exact Or.inr (Or.inr (Or.inl (List.mem_singleton.mp h1)))
  | err =>
    simp only [updatePhase2Step, hho] at h
    rcases List.mem_append.mp h with h1 | h1
    · exact Or.inl h1
    · exact Or.inr (Or.inr (Or.inr (Or.inl (List.mem_singleton.mp h1))))
  | ok hr =>
    simp only [updatePhase2Step, hho] at h
    rcases maybe_commit_events_sub h with h1 | h1
    · rcases List.mem_append.mp h1 with h2 | h2
      · exact Or.inl h2
      · exact Or.inr (Or.inr (Or.inr (Or.inr (List.mem_singleton.mp h2))))
    · exact Or.inr (Or.inl h1)

theorem updatePhase2_fold_events_sub {se : Nat} {ho : String → HashOutcome}
    (l : List String) (st : PassState) {e : Ev}
    (h : e ∈ (l.foldl (updatePhase2Step se ho) st).events) :
    e ∈ st.events ∨ e = Ev.commit ∨ ∃ p ∈ l, e = Ev.skippedVanished p ∨
      e = Ev.hashError p ∨ e = Ev.added p := by
  induction l generalizing st with
  | nil => exact Or.inl h
  | cons p ps ih =>
    rw [List.foldl_cons] at h
    rcases ih _ h with h1 | h1 | ⟨q, hq, hc⟩
    · rcases updatePhase2Step_events_sub h1 with h2 | h2 | h2
      · exact Or.inl h2
      · exact Or.inr (Or.inl h2)
      · exact Or.inr (Or.inr ⟨p, List.mem_cons_self _ _, h2⟩)
    · exact Or.inr (Or.inl h1)
    · exact Or.inr (Or.inr ⟨q, List.mem_cons_of_mem _ hq, hc⟩)

theorem updatePhase2Step_ledger (se : Nat) (ho : String → HashOutcome)
    (st : PassState) (p : String) :
    (updatePhase2Step se ho st p).ledger = st.ledger ∨
      ∃ hr, ho p = HashOutcome.ok hr ∧
        (updatePhase2Step se ho st p).ledger
          = update_record st.ledger p hr.hash hr.modified := by
  cases hho : ho p with
  | notFound => simp [updatePhase2Step, hho]
  | err => simp [updatePhase2Step, hho]
  | ok hr =>
    simp only [updatePhase2Step, hho]
    rw [maybe_commit_ledger]
    exact Or.inr ⟨hr, rfl, rfl⟩

theorem updatePhase2_fold_ledger_sub {se : Nat} {ho : String → HashOutcome}
    (l : List String) (st : PassState) {x : Record}
    (hx : x ∈ (l.foldl (updatePhase2Step se ho) st).ledger) :
    x ∈ st.ledger ∨ (x.path ∈ l ∧ ∃ hr, ho x.path = HashOutcome.ok hr ∧
      x.hash = hr.hash ∧ x.modified = hr.modified) := by
  induction l generalizing st with
  | nil => exact Or.inl hx
  | cons p ps ih =>
    rw [List.foldl_cons] at hx
    rcases ih _ hx with h1 | ⟨h1, h2⟩
    · rcases updatePhase2Step_ledger se ho st p with h2 | ⟨hr, hho, h2⟩
      · rw [h2] at h1; exact Or.inl h1
      · rw [h2] at h1
        rcases mem_update_record.mp h1 with ⟨h3, _⟩ | h3
        · exact Or.inl h3
        · subst h3
          exact Or.inr ⟨List.mem_cons_self _ _, hr, hho, rfl, rfl⟩
    · exact Or.inr ⟨List.mem_cons_of_mem _ h1, h2⟩

theorem updatePhase2Step_exists_mono {se : Nat} {ho : String → HashOutcome}
    {st : PassState} {p q : String}
    (h : record_exists st.ledger q = true) :
    record_exists (updatePhase2Step se ho st p).ledger q = true := by
  rcases updatePhase2Step_ledger se ho st p with h1 | ⟨hr, _, h1⟩
  · rw [h1]; exact h
  · rw [h1]; exact record_exists_update_record _ _ _ _ _ h

theorem updatePhase2_fold_exists_mono {se : Nat} {ho : String → HashOutcome}
    (l : List String) (st : PassState) {q : String}
    (h : record_exists st.ledger q = true) :
    record_exists ((l.foldl (updatePhase2Step se ho) st).ledger) q = true := by
  induction l generalizing st with
  | nil => exact h
  | cons p ps ih => exact ih _ (updatePhase2Step_exists_mono h)

theorem updatePhase2Step_exists_self {se : Nat} {ho : String → HashOutcome}
    {st : PassState} {p : String} {hr : HashResult}
    (hho : ho p = HashOutcome.ok hr) :
    record_exists (updatePhase2Step se ho st p).ledger p = true := by
  simp only [updatePhase2Step, hho]
  rw [maybe_commit_ledger]
  exact record_exists_update_self _ _ _ _

theorem updatePhase2_fold_exists {se : Nat} {ho : String → HashOutcome}
    (l : List String) (st : PassState) {p : String} (hp : p ∈ l)
    {hr : HashResult} (hho : ho p = HashOutcome.ok hr) :
    record_exists ((l.foldl (updatePhase2Step se ho) st).ledger) p = true := by
  induction l generalizing st with
  | nil => cases hp
  | cons a t ih =>
    rw [List.foldl_cons]
    rcases List.mem_cons.mp hp with h1 | h1
    · subst h1
      exact updatePhase2_fold_exists_mono t _ (updatePhase2Step_exists_self hho)
    · exact ih _ h1

/-! ### Pass-level lemmas for the discovery pass -/

theorem update_files_exitCode (se : Nat) (dbPath : String)
    (isFile encodable : String → Bool) (ho : String → HashOutcome)
    (ledger : List Record) (entries : List String) :
    (update_files se dbPath isFile encodable ho ledger entries).exitCode
      = ExitCode.Success := by
  unfold update_files
  rw [finishPass_exitCode, updatePhase2_fold_exit, updatePhase1_eq]
  rfl

theorem update_files_events_sub {se : Nat} {dbPath : String}
    {isFile encodable : String → Bool} {ho : String → HashOutcome}
    {ledger : List Record} {entries : List String} {e : Ev}
    (h : e ∈ (update_files se dbPath isFile encodable ho ledger
      entries).events) :
    (∃ p, e = Ev.encodingError p) ∨ e = Ev.commit ∨
      ∃ p, e = Ev.skippedVanished p ∨ e = Ev.hashError p ∨ e = Ev.added p := by
  unfold update_files at h
  rcases finishPass_events_sub h with h1 | h1
  · rcases updatePhase2_fold_events_sub _ _ h1 with h2 | h2 | ⟨p, _, hc⟩
    · rw [updatePhase1_eq] at h2
      simp only [List.mem_map] at h2
      obtain ⟨p, _, hp⟩ := h2
      exact Or.inl ⟨p, hp.symm⟩
    · exact Or.inr (Or.inl h2)
    · exact Or.inr (Or.inr ⟨p, hc⟩)
  · exact Or.inr (Or.inl h1)

theorem update_files_no_bitrot {se : Nat} {dbPath : String}
    {isFile encodable : String → Bool} {ho : String → HashOutcome}
    {ledger : List Record} {entries : List String} {e : Ev}
    (h : e ∈ (update_files se dbPath isFile encodable ho ledger
      entries).events) :
    isBitRot e = false := by
  rcases update_files_events_sub h with ⟨p, hp⟩ | hp | ⟨p, hp | hp | hp⟩ <;>
    rw [hp] <;> rfl

theorem update_files_ledger_sub {se : Nat} {dbPath : String}
    {isFile encodable : String → Bool} {ho : String → HashOutcome}
    {ledger : List Record} {entries : List String} {x : Record}
    (hx : x ∈ (update_files se dbPath isFile encodable ho ledger
      entries).ledger) :
    x ∈ ledger ∨
      (eligibleNew dbPath isFile encodable ledger x.path = true ∧
        ∃ hr, ho x.path = HashOutcome.ok hr ∧ x.hash = hr.hash ∧
          x.modified = hr.modified) := by
  unfold update_files at hx
  rw [finishPass_ledger] at hx
  rcases updatePhase2_fold_ledger_sub _ _ hx with h1 | ⟨h1, h2⟩
  · have h1' : x ∈ ledger := by
      rw [updatePhase1_eq] at h1
      exact h1
    exact Or.inl h1'
  · have h1' : x.path ∈ entries.filter
        (eligibleNew dbPath isFile encodable ledger) := by
      rw [updatePhase1_eq] at h1
      exact h1
    exact Or.inr ⟨(List.mem_filter.mp h1').2, h2⟩

theorem update_files_exists {se : Nat} {dbPath : String}
    {isFile encodable : String → Bool} {ho : String → HashOutcome}
    {ledger : List Record} {entries : List String} {p : String}
    (hp : p ∈ entries) (hdb : p ≠ dbPath) (hf : isFile p = true)
    (henc : encodable p = true)
    (hok : ∀ q, isFile q = true → ∃ hr, ho q = HashOutcome.ok hr) :
    record_exists ((update_files se dbPath isFile encodable ho ledger
      entries).ledger) p = true := by
  unfold update_files
  rw [finishPass_ledger]
  by_cases hex : record_exists ledger p = true
  · rw [updatePhase1_eq]
    exact updatePhase2_fold_exists_mono _ _ hex
  · have hex' : record_exists ledger p = false := by
      rcases Bool.eq_false_or_eq_true (record_exists ledger p) with hc | hc
      · exact absurd hc hex
      · exact hc
    have hel : eligibleNew dbPath isFile encodable ledger p = true := by
      simp [eligibleNew, hdb, hf, henc, hex']
    have hmem : p ∈ (updatePhase1 dbPath isFile encodable ledger entries).2 := by
      rw [updatePhase1_eq]
      exact List.mem_filter.mpr ⟨hp, hel⟩
    obtain ⟨hr, hho⟩ := hok p hf
    rw [updatePhase1_eq] at hmem ⊢
    exact updatePhase2_fold_exists _ _ hmem hho

/-- When every entry is either skipped (database file, non-file) or already
recorded with an encodable name, the discovery pass does nothing but the
final commit. -/
theorem update_files_clean {se : Nat} {dbPath : String}
    {isFile encodable : String → Bool} {ho : String → HashOutcome}
    {ledger : List Record} {entries : List String}
    (h : ∀ p ∈ entries, p = dbPath ∨ isFile p = false ∨
      (encodable p = true ∧ record_exists ledger p = true)) :
    update_files se dbPath isFile encodable ho ledger entries
      = ⟨ledger, 0, ExitCode.Success, [Ev.commit]⟩ := by
  have hbad : entries.filter (badName dbPath isFile encodable) = [] := by
    rw [List.filter_eq_nil]
    intro p hp
    rcases h p hp with h1 | h1 | ⟨h1, _⟩ <;> simp [badName, h1]
  have hel : entries.filter (eligibleNew dbPath isFile encodable ledger)
      = [] := by
    rw [List.filter_eq_nil]
    intro p hp
    rcases h p hp with h1 | h1 | ⟨_, h1⟩ <;> simp [eligibleNew, h1]
  unfold update_files
  rw [updatePhase1_eq, hbad, hel]
  simp [finishPass, initState]


/-! ### Pass-level lemmas for the verification pass -/

theorem checkPhase1_exitCode (se : Nat) (isFile : String → Bool)
    (records : List Record) :
    (checkPhase1 se isFile records).1.exitCode = ExitCode.Success := by
  unfold checkPhase1
  rw [checkPhase1_fold_exitCode]
  rfl

theorem finishPass_exitInv {st : PassState} (h : exitInv st) :
    exitInv (finishPass st) := by
  show exitInvP st.exitCode (st.events ++ [Ev.commit])
  exact exitInvP_append h (singleton_no_bitRot rfl)

theorem checkPhase1_exitInv (se : Nat) (isFile : String → Bool)
    (records : List Record) : exitInv (checkPhase1 se isFile records).1 := by
  unfold exitInv exitInvP
  rw [checkPhase1_exitCode]
  constructor
  · intro h; cases h
  · rintro ⟨e, he, hb⟩
    have he' := he
    unfold checkPhase1 at he'
    rcases checkPhase1_fold_events se isFile records _ _ he' with h1 | ⟨p, h1⟩ | h1
    · cases h1
    · rw [h1] at hb; cases hb
    · rw [h1] at hb; cases hb

theorem check_files_exitInv (se : Nat) (isFile : String → Bool)
    (ho : String → HashOutcome) (records : List Record) :
    exitInv (check_files se isFile ho records) := by
  unfold check_files
  exact finishPass_exitInv
    (checkPhase2_fold_exitInv _ _ (checkPhase1_exitInv se isFile records))

theorem check_files_failure_iff (se : Nat) (isFile : String → Bool)
    (ho : String → HashOutcome) (records : List Record) :
    (check_files se isFile ho records).exitCode = ExitCode.Failure ↔
      ∃ e ∈ (check_files se isFile ho records).events, isBitRot e = true :=
  check_files_exitInv se isFile ho records

/-- A ledger record whose file exists and whose stored digest/timestamp
agree with what the digest worker currently observes. -/
def goodRec (isFile : String → Bool) (ho : String → HashOutcome)
    (x : Record) : Prop :=
  isFile x.path = true ∧ ho x.path = HashOutcome.ok ⟨x.hash, x.modified⟩

theorem checkPhase2_fold_good {se : Nat} {isFile : String → Bool}
    {ho : String → HashOutcome} (l : List Record) (st : PassState)
    (hl : ∀ r ∈ l, isFile r.path = true)
    (hok : ∀ p, isFile p = true → ∃ hr, ho p = HashOutcome.ok hr)
    (hinv : st.exitCode = ExitCode.Failure ∨
      ∀ x ∈ st.ledger, goodRec isFile ho x ∨ x ∈ l) :
    (l.foldl (checkPhase2Step se ho) st).exitCode = ExitCode.Failure ∨
      ∀ x ∈ (l.foldl (checkPhase2Step se ho) st).ledger,
        goodRec isFile ho x := by
  induction l generalizing st with
  | nil =>
    rcases hinv with h | h
    · exact Or.inl h
    · right
      intro x hx
      rcases h x hx with h1 | h1
      · exact h1
      · cases h1
  | cons r rs ih =>
    rw [List.foldl_cons]
    apply ih _ (fun r' h' => hl r' (List.mem_cons_of_mem _ h'))
    rcases hinv with hF | hG
    · exact Or.inl (checkPhase2Step_failure r hF)
    · obtain ⟨hr', hho⟩ := hok r.path (hl r (List.mem_cons_self _ _))
      rcases classify_cases r hr' with hc | hc | hc
      · right
        intro x hx
        have hled : (checkPhase2Step se ho st r).ledger
            = update_record st.ledger r.path hr'.hash hr'.modified := by
          simp only [checkPhase2Step, hho]
          rw [maybe_commit_ledger, if_pos hc]
        rw [hled] at hx
        rcases mem_update_record.mp hx with ⟨hx1, hxne⟩ | hx1
        · rcases hG x hx1 with h1 | h1
          · exact Or.inl h1
          · rcases List.mem_cons.mp h1 with h2 | h2
            · exact absurd (congrArg Record.path h2) hxne
            · exact Or.inr h2
        · subst hx1
          exact Or.inl ⟨hl r (List.mem_cons_self _ _), hho⟩
      · left
        have hup : classify r hr' ≠ Outcome.Updated := by
          rw [hc]; intro hcc; cases hcc
        simp only [checkPhase2Step, hho]
        rw [maybe_commit_exitCode, if_neg hup, if_pos hc]
      · right
        intro x hx
        have hled : (checkPhase2Step se ho st r).ledger = st.ledger := by
          have hup : classify r hr' ≠ Outcome.Updated := by
            rw [hc]; intro hcc; cases hcc
          have hbr : classify r hr' ≠ Outcome.BitRotDetected := by
            rw [hc]; intro hcc; cases hcc
          simp only [checkPhase2Step, hho]
          rw [maybe_commit_ledger, if_neg hup, if_neg hbr]
        rw [hled] at hx
        rcases hG x hx with h1 | h1
        · exact Or.inl h1
        · rcases List.mem_cons.mp h1 with h2 | h2
          · subst h2
            obtain ⟨hm, hh⟩ := (classify_eq_unchanged_iff x hr').mp hc
            left
            refine ⟨hl x (List.mem_cons_self _ _), ?_⟩
            rw [hho]
            congr 1
            cases hr'
            simp only [HashResult.mk.injEq]
            exact ⟨hh.symm ▸ rfl, hm.symm ▸ rfl⟩
          · exact Or.inr h2

theorem check_files_good {se : Nat} {isFile : String → Bool}
    {ho : String → HashOutcome} {records : List Record}
    (hok : ∀ p, isFile p = true → ∃ hr, ho p = HashOutcome.ok hr)
    (hS : (check_files se isFile ho records).exitCode = ExitCode.Success) :
    ∀ x ∈ (check_files se isFile ho records).ledger,
      goodRec isFile ho x := by
  unfold check_files at hS ⊢
  rw [finishPass_exitCode] at hS
  intro x hx
  rw [finishPass_ledger] at hx
  have hl : ∀ r ∈ (checkPhase1 se isFile records).2, isFile r.path = true := by
    intro r hr
    rw [checkPhase1_subs] at hr
    exact (List.mem_filter.mp hr).2
  have hinv : ∀ x' ∈ (checkPhase1 se isFile records).1.ledger,
      goodRec isFile ho x' ∨ x' ∈ (checkPhase1 se isFile records).2 := by
    intro x' hx'
    right
    rw [checkPhase1_subs]
    exact List.mem_filter.mpr
      ⟨checkPhase1_ledger_sub _ _ _ hx', checkPhase1_ledger_isFile _ _ _ hx'⟩
  rcases checkPhase2_fold_good _ _ hl hok (Or.inr hinv) with hF | hGood
  · rw [hF] at hS; cases hS
  · exact hGood x hx

theorem checkPhase1_ledger_allFile (se : Nat) (isFile : String → Bool)
    (records : List Record) (h : ∀ r ∈ records, isFile r.path = true) :
    (checkPhase1 se isFile records).1.ledger = records := by
  rw [checkPhase1_ledger]
  apply List.filter_eq_self.mpr
  intro x _
  rw [List.all_eq_true]
  intro r hr
  simp [h r hr]

theorem checkPhase1_subs_allFile (se : Nat) (isFile : String → Bool)
    (records : List Record) (h : ∀ r ∈ records, isFile r.path = true) :
    (checkPhase1 se isFile records).2 = records := by
  rw [checkPhase1_subs]
  exact List.filter_eq_self.mpr h

theorem checkPhase1_events_allFile (se : Nat) (isFile : String → Bool)
    (records : List Record) (h : ∀ r ∈ records, isFile r.path = true) {e : Ev}
    (he : e ∈ (checkPhase1 se isFile records).1.events) : e = Ev.commit := by
  unfold checkPhase1 at he
  rcases checkPhase1_fold_events se isFile records _ _ he with h1 | ⟨p, h1⟩ | h1
  · cases h1
  · exfalso
    -- a `removed` event needs a record that fails `isFile`; impossible here
    revert h1
    revert he
    have : ∀ (st : PassState) (subs : List Record), (∀ e' ∈ st.events,
        e' ≠ Ev.removed p) →
        ∀ e' ∈ ((records.foldl (checkPhase1Step se isFile)
          (st, subs)).1).events, e' ≠ Ev.removed p := by
      intro st subs hst
      induction records generalizing st subs with
      | nil => exact hst
      | cons r rs ih =>
        intro e' he'
        rw [List.foldl_cons] at he'
        simp only [checkPhase1Step] at he'
        rw [if_pos (h r (List.mem_cons_self _ _))] at he'
        refine ih (fun r' hr' => h r' (List.mem_cons_of_mem _ hr')) _ _ ?_ e' he'
        intro e'' he''
        rcases maybe_commit_events_sub he'' with h2 | h2
        · exact hst e'' h2
        · rw [h2]; intro hc; cases hc
    intro he h1
    exact this (initState records) [] (by intro e' he'; cases he') e he h1
  · exact h1

/-- A verification pass over a ledger every record of which matches the
live filesystem: nothing is mutated, the exit code stays `Success`, and
every file is classified unchanged. -/
theorem checkPhase2_fold_clean {se : Nat} {isFile : String → Bool}
    {ho : String → HashOutcome} (l : List Record) (st : PassState)
    (h : ∀ r ∈ l, goodRec isFile ho r) :
    (l.foldl (checkPhase2Step se ho) st).ledger = st.ledger ∧
    (l.foldl (checkPhase2Step se ho) st).exitCode = st.exitCode ∧
    ∀ e ∈ (l.foldl (checkPhase2Step se ho) st).events,
      e ∈ st.events ∨ e = Ev.commit ∨ ∃ p, e = Ev.unchanged p := by
  induction l generalizing st with
  | nil => exact ⟨rfl, rfl, fun e he => Or.inl he⟩
  | cons r rs ih =>
    rw [List.foldl_cons]
    obtain ⟨hf, hho⟩ := h r (List.mem_cons_self _ _)
    have hcl : classify r ⟨r.hash, r.modified⟩ = Outcome.Unchanged :=
      (classify_eq_unchanged_iff r ⟨r.hash, r.modified⟩).mpr ⟨rfl, rfl⟩
    have hup : classify r (⟨r.hash, r.modified⟩ : HashResult)
        ≠ Outcome.Updated := by
      rw [hcl]; intro hc; cases hc
    have hbr : classify r (⟨r.hash, r.modified⟩ : HashResult)
        ≠ Outcome.BitRotDetected := by
      rw [hcl]; intro hc; cases hc
    have stepEq : checkPhase2Step se ho st r = maybe_commit se
        { st with events := st.events ++ [Ev.unchanged r.path] } := by
      simp only [checkPhase2Step, hho]
      rw [if_neg hup, if_neg hbr]
    rw [stepEq]
    obtain ⟨ihl, ihe, ihev⟩ := ih _ (fun r' h' => h r' (List.mem_cons_of_mem _ h'))
    refine ⟨?_, ?_, ?_⟩
    · rw [ihl, maybe_commit_ledger]
    · rw [ihe, maybe_commit_exitCode]
    · intro e he
      rcases ihev e he with h1 | h1 | h1
      · rcases maybe_commit_events_sub h1 with h2 | h2
        · rcases List.mem_append.mp h2 with h3 | h3
          · exact Or.inl h3
          · exact Or.inr (Or.inr ⟨r.path, List.mem_singleton.mp h3⟩)
        · exact Or.inr (Or.inl h2)
      · exact Or.inr (Or.inl h1)
      · exact Or.inr (Or.inr h1)

theorem check_files_clean (se : Nat) {isFile : String → Bool}
    {ho : String → HashOutcome} {records : List Record}
    (h : ∀ x ∈ records, goodRec isFile ho x) :
    (check_files se isFile ho records).ledger = records ∧
    (check_files se isFile ho records).exitCode = ExitCode.Success ∧
    ∀ e ∈ (check_files se isFile ho records).events,
      e = Ev.commit ∨ ∃ p, e = Ev.unchanged p := by
  have hall : ∀ r ∈ records, isFile r.path = true := fun r hr => (h r hr).1
  have hgood2 : ∀ r ∈ (checkPhase1 se isFile records).2,
      goodRec isFile ho r := by
    rw [checkPhase1_subs_allFile se isFile records hall]
    exact h
  obtain ⟨hl, he, hev⟩ := checkPhase2_fold_clean
    (checkPhase1 se isFile records).2 (checkPhase1 se isFile records).1 hgood2
  unfold check_files
  refine ⟨?_, ?_, ?_⟩
  · rw [finishPass_ledger, hl, checkPhase1_ledger_allFile se isFile records hall]
  · rw [finishPass_exitCode, he, checkPhase1_exitCode]
  · intro e he'
    rcases finishPass_events_sub he' with h1 | h1
    · rcases hev e h1 with h2 | h2 | h2
      · exact Or.inl (checkPhase1_events_allFile se isFile records hall h2)
      · exact Or.inl h2
      · exact Or.inr h2
    · exact Or.inl h1


/-! ### Lemmas about the digest worker -/

theorem chunksOf_nil (n : Nat) : chunksOf n [] = [] := by
  unfold chunksOf
  rw [dif_pos (Or.inr rfl)]

theorem chunksOf_foldl_aux (n : Nat) (hn : 0 < n) :
    ∀ (k : Nat) (l : List Nat), l.length ≤ k → ∀ acc : List Nat,
      (chunksOf n l).foldl (fun a c => a ++ c) acc = acc ++ l := by
  intro k
  induction k with
  | zero =>
    intro l hl acc
    cases l with
    | nil => rw [chunksOf_nil]; simp
    | cons a t => simp at hl
  | succ k ih =>
    intro l hl acc
    by_cases h0 : l = []
    · subst h0; rw [chunksOf_nil]; simp
    · rw [chunksOf, dif_neg (by push_neg; exact ⟨Nat.pos_iff_ne_zero.mp hn, h0⟩)]
      rw [List.foldl_cons]
      rw [ih (l.drop n) ?_ (acc ++ l.take n)]
      · rw [List.append_assoc, List.take_append_drop]
      · rw [List.length_drop]
        have h1 : 0 < l.length := List.length_pos.mpr h0
        omega

theorem chunksOf_foldl (n : Nat) (hn : 0 < n) (l acc : List Nat) :
    (chunksOf n l).foldl (fun a c => a ++ c) acc = acc ++ l :=
  chunksOf_foldl_aux n hn l.length l (le_refl _) acc

/-- With a positive chunk size, the streaming accumulator is fed exactly
the file's bytes, so the digest is the digest of the whole content, and
the timestamp is the one taken by the `stat` before the read. -/
theorem get_hash_eq (hashFn : List Nat → List Nat) (chunkSize : Nat)
    (hn : 0 < chunkSize) (file : FileSnapshot) :
    get_hash hashFn chunkSize file = ⟨hashFn file.content, file.mtime⟩ := by
  unfold get_hash
  rw [chunksOf_foldl chunkSize hn]
  rfl

theorem chunksOf_dropLast_aux (n : Nat) (hn : 0 < n) :
    ∀ (k : Nat) (l : List Nat), l.length ≤ k →
      ∀ c ∈ (chunksOf n l).dropLast, c.length = n := by
  intro k
  induction k with
  | zero =>
    intro l hl c hc
    cases l with
    | nil => rw [chunksOf_nil] at hc; cases hc
    | cons a t => simp at hl
  | succ k ih =>
    intro l hl c hc
    by_cases h0 : l = []
    · subst h0; rw [chunksOf_nil] at hc; cases hc
    · rw [chunksOf,
        dif_neg (by push_neg; exact ⟨Nat.pos_iff_ne_zero.mp hn, h0⟩)] at hc
      rcases hcc : chunksOf n (l.drop n) with _ | ⟨c0, cs⟩
      · rw [hcc] at hc
        simp at hc
      · rw [hcc] at hc
        rw [show (l.take n :: c0 :: cs).dropLast
            = l.take n :: (c0 :: cs).dropLast from rfl] at hc
        have hd : l.drop n ≠ [] := by
          intro hcon
          rw [hcon, chunksOf_nil] at hcc
          cases hcc
        have hlen : n < l.length := by
          have h1 : 0 < (l.drop n).length := List.length_pos.mpr hd
          rw [List.length_drop] at h1
          omega
        rcases List.mem_cons.mp hc with h1 | h1
        · subst h1
          rw [List.length_take]
          omega
        · refine ih (l.drop n) ?_ c ?_
          · rw [List.length_drop]
            omega
          · rw [hcc]
            exact h1

/-- Every chunk the read loop produces, except possibly the last, has
exactly `chunkSize` bytes. -/
theorem chunksOf_dropLast_length (n : Nat) (hn : 0 < n) (l : List Nat) :
    ∀ c ∈ (chunksOf n l).dropLast, c.length = n :=
  chunksOf_dropLast_aux n hn l.length l (le_refl _)

/-! ### Lemmas about pending-mutation counting (checkpointing) -/

theorem check_files_ends_commit (se : Nat) (isFile : String → Bool)
    (ho : String → HashOutcome) (records : List Record) :
    ∃ t, (check_files se isFile ho records).events = t ++ [Ev.commit] :=
  ⟨_, rfl⟩

theorem update_files_ends_commit (se : Nat) (dbPath : String)
    (isFile encodable : String → Bool) (ho : String → HashOutcome)
    (ledger : List Record) (entries : List String) :
    ∃ t, (update_files se dbPath isFile encodable ho ledger entries).events
      = t ++ [Ev.commit] :=
  ⟨_, rfl⟩

theorem pend_encErr (l : List String) (acc : Nat × Nat) :
    (l.map Ev.encodingError).foldl pendStep acc = acc := by
  induction l generalizing acc with
  | nil => rfl
  | cons p ps ih =>
    rw [List.map_cons, List.foldl_cons]
    rw [show pendStep acc (Ev.encodingError p) = acc from rfl]
    exact ih acc

/-- The running pending count computed from a pass state's trace matches
its `database_changes` counter and never exceeded `save_every`. -/
def pendInv (se : Nat) (st : PassState) : Prop :=
  (st.events.foldl pendStep (0, 0)).1 = st.changes ∧
  (st.events.foldl pendStep (0, 0)).2 ≤ se ∧
  st.changes < se

theorem updatePhase2Step_pendInv {se : Nat} {ho : String → HashOutcome}
    {st : PassState} {p : String} (hse : 0 < se) (h : pendInv se st) :
    pendInv se (updatePhase2Step se ho st p) := by
  obtain ⟨h1, h2, h3⟩ := h
  cases hho : ho p with
  | notFound =>
    simp only [updatePhase2Step, hho]
    refine ⟨?_, ?_, h3⟩
    · show ((st.events ++ [Ev.skippedVanished p]).foldl pendStep (0, 0)).1
        = st.changes
      rw [List.foldl_append]
      exact h1
    · show ((st.events ++ [Ev.skippedVanished p]).foldl pendStep (0, 0)).2 ≤ se
      rw [List.foldl_append]
      exact h2
  | err =>
    simp only [updatePhase2Step, hho]
    refine ⟨?_, ?_, h3⟩
    · show ((st.events ++ [Ev.hashError p]).foldl pendStep (0, 0)).1
        = st.changes
      rw [List.foldl_append]
      exact h1
    · show ((st.events ++ [Ev.hashError p]).foldl pendStep (0, 0)).2 ≤ se
      rw [List.foldl_append]
      exact h2
  | ok hr =>
    simp only [updatePhase2Step, hho, maybe_commit]
    split
    case isTrue hc =>
      refine ⟨?_, ?_, hse⟩
      · show (((st.events ++ [Ev.added p]) ++ [Ev.commit]).foldl pendStep
          (0, 0)).1 = 0
        rw [List.foldl_append, List.foldl_append]
        rfl
      · show (((st.events ++ [Ev.added p]) ++ [Ev.commit]).foldl pendStep
          (0, 0)).2 ≤ se
        rw [List.foldl_append, List.foldl_append]
        show (max (st.events.foldl pendStep (0, 0)).2
          ((st.events.foldl pendStep (0, 0)).1 + 1)) ≤ se
        rw [h1]
        exact max_le h2 (by omega)
    case isFalse hc =>
      have hne : st.changes + 1 ≠ se := by
        intro he
        apply hc
        show ((st.changes + 1) % se) = 0
        rw [he, Nat.mod_self]
      refine ⟨?_, ?_, ?_⟩
      case refine_3 =>
        show st.changes + 1 < se
        omega
      · show ((st.events ++ [Ev.added p]).foldl pendStep (0, 0)).1
          = st.changes + 1
        rw [List.foldl_append]
        show (st.events.foldl pendStep (0, 0)).1 + 1 = st.changes + 1
        rw [h1]
      · show ((st.events ++ [Ev.added p]).foldl pendStep (0, 0)).2 ≤ se
        rw [List.foldl_append]
        show (max (st.events.foldl pendStep (0, 0)).2
          ((st.events.foldl pendStep (0, 0)).1 + 1)) ≤ se
        rw [h1]
        exact max_le h2 (by omega)

theorem updatePhase2_fold_pendInv {se : Nat} {ho : String → HashOutcome}
    (l : List String) (st : PassState) (hse : 0 < se)
    (h : pendInv se st) :
    pendInv se (l.foldl (updatePhase2Step se ho) st) := by
  induction l generalizing st with
  | nil => exact h
  | cons p ps ih => exact ih _ (updatePhase2Step_pendInv hse h)

/-- During the discovery pass, at most `save_every` uncommitted mutations
are ever pending. -/
theorem update_files_maxPending {se : Nat} {dbPath : String}
    {isFile encodable : String → Bool} {ho : String → HashOutcome}
    {ledger : List Record} {entries : List String} (hse : 0 < se) :
    maxPending (update_files se dbPath isFile encodable ho ledger
      entries).events ≤ se := by
  have hinit : pendInv se (updatePhase1 dbPath isFile encodable ledger
      entries).1 := by
    rw [updatePhase1_eq]
    refine ⟨?_, ?_, hse⟩
    · show (((entries.filter (badName dbPath isFile encodable)).map
        Ev.encodingError).foldl pendStep (0, 0)).1 = 0
      rw [pend_encErr]
    · show (((entries.filter (badName dbPath isFile encodable)).map
        Ev.encodingError).foldl pendStep (0, 0)).2 ≤ se
      rw [pend_encErr]
      omega
  have hfold := @updatePhase2_fold_pendInv se ho
    (updatePhase1 dbPath isFile encodable ledger entries).2
    (updatePhase1 dbPath isFile encodable ledger entries).1 hse hinit
  obtain ⟨_, h2, _⟩ := hfold
  unfold update_files maxPending
  show ((((updatePhase1 dbPath isFile encodable ledger entries).2.foldl
      (updatePhase2Step se ho)
      (updatePhase1 dbPath isFile encodable ledger entries).1).events
        ++ [Ev.commit]).foldl pendStep (0, 0)).2 ≤ se
  rw [List.foldl_append]
  exact h2


/-! ### Reduction lemmas for `run` -/

theorem run_false_eq (se : Nat) (dbPath : String)
    (isFile encodable : String → Bool) (hoC hoU : String → HashOutcome)
    (records : List Record) (entries : List String) :
    run false se dbPath isFile encodable hoC hoU records entries
      = ⟨(update_files se dbPath isFile encodable hoU records
            entries).exitCode,
          (update_files se dbPath isFile encodable hoU records
            entries).events,
          (update_files se dbPath isFile encodable hoU records
            entries).ledger,
          true⟩ := rfl

theorem run_true_success (se : Nat) (dbPath : String)
    (isFile encodable : String → Bool) (hoC hoU : String → HashOutcome)
    (records : List Record) (entries : List String)
    (h : (check_files se isFile hoC records).exitCode = ExitCode.Success) :
    run true se dbPath isFile encodable hoC hoU records entries
      = ⟨(update_files se dbPath isFile encodable hoU
            (check_files se isFile hoC records).ledger entries).exitCode,
          (check_files se isFile hoC records).events ++
            (update_files se dbPath isFile encodable hoU
              (check_files se isFile hoC records).ledger entries).events,
          (update_files se dbPath isFile encodable hoU
            (check_files se isFile hoC records).ledger entries).ledger,
          true⟩ := by
  unfold run
  rw [if_pos rfl, if_pos h]

theorem run_true_failure (se : Nat) (dbPath : String)
    (isFile encodable : String → Bool) (hoC hoU : String → HashOutcome)
    (records : List Record) (entries : List String)
    (h : ¬(check_files se isFile hoC records).exitCode = ExitCode.Success) :
    run true se dbPath isFile encodable hoC hoU records entries
      = ⟨(check_files se isFile hoC records).exitCode,
          (check_files se isFile hoC records).events,
          (check_files se isFile hoC records).ledger,
          false⟩ := by
  unfold run
  rw [if_pos rfl, if_neg h]

theorem check_files_ledger_sub {se : Nat} {isFile : String → Bool}
    {ho : String → HashOutcome} {records : List Record} {x : Record}
    (hx : x ∈ (check_files se isFile ho records).ledger) :
    x ∈ records ∨ ∃ hr, ho x.path = HashOutcome.ok hr ∧
      x.hash = hr.hash ∧ x.modified = hr.modified := by
  unfold check_files at hx
  rw [finishPass_ledger] at hx
  rcases checkPhase2_fold_ledger_sub _ _ hx with h1 | h1
  · exact Or.inl (checkPhase1_ledger_sub _ _ _ h1)
  · exact Or.inr h1

theorem check_files_nodup {se : Nat} {isFile : String → Bool}
    {ho : String → HashOutcome} {records : List Record}
    (hn : pathsNodup records) :
    pathsNodup (check_files se isFile ho records).ledger := by
  unfold check_files
  rw [finishPass_ledger]
  exact checkPhase2_fold_nodup _ _ (checkPhase1_ledger_nodup se isFile records hn)

theorem check_files_event_exists {se : Nat} {isFile : String → Bool}
    {ho : String → HashOutcome} {records : List Record} {r : Record}
    (hmem : r ∈ records) (hfile : isFile r.path = true) :
    ∃ e ∈ (check_files se isFile ho records).events,
      evPath e = some r.path := by
  unfold check_files
  have hrsub : r ∈ (checkPhase1 se isFile records).2 := by
    rw [checkPhase1_subs]
    exact List.mem_filter.mpr ⟨hmem, hfile⟩
  obtain ⟨e, he, hp⟩ := checkPhase2_fold_event_exists _ _ hrsub
  exact ⟨e, finishPass_events_mono he, hp⟩

/-! ### The claims -/

/-- Claim C9, counterexample: the default chunk size of `console.py` is
`1000 ** 2` bytes, which is not 1 MiB (1048576 bytes) as claimed. -/
theorem C9_counterexample : chunk_size_default ≠ 1048576 := by decide

/-- Claim C9 (amended): the configurable read chunk size defaults to
1000000 bytes (`1000 ** 2`, decimal 1 MB, not 1 MiB), and the digest
worker reads the file in chunks of at most that size — every chunk except
possibly the last has exactly `chunk-size` bytes — feeding the streaming
accumulator, whose final digest is the digest of the entire content. -/
theorem C9_chunk_size_amended (hashFn : List Nat → List Nat)
    (chunkSize : Nat) (file : FileSnapshot) (h : 0 < chunkSize) :
    chunk_size_default = 1000000 ∧
    (get_hash hashFn chunkSize file).hash = hashFn file.content ∧
    ∀ c ∈ (chunksOf chunkSize file.content).dropLast,
      c.length = chunkSize := by
  refine ⟨by decide, ?_, chunksOf_dropLast_length chunkSize h file.content⟩
  rw [get_hash_eq hashFn chunkSize h]

theorem C9_chunk_size_amended_witness :
    chunk_size_default = 1000000 ∧
    (get_hash (fun l => l) 2 ⟨[1, 2, 3], 7⟩).hash = (fun l => l) [1, 2, 3] ∧
    ∀ c ∈ (chunksOf 2 ([1, 2, 3] : List Nat)).dropLast, c.length = 2 :=
  C9_chunk_size_amended (fun l => l) 2 ⟨[1, 2, 3], 7⟩ (by decide)

/-- Claim C10: with the check flag disabled, `run` only performs the
discovery pass, whose exit code is initialised to `Success` and never
modified, so the process exit code is `Success` (0) for every input and no
corruption can be reported. -/
theorem C10_no_check_success (saveEvery : Nat) (dbPath : String)
    (isFile encodable : String → Bool) (hoC hoU : String → HashOutcome)
    (records : List Record) (entries : List String) :
    (run false saveEvery dbPath isFile encodable hoC hoU records
      entries).exitCode = ExitCode.Success ∧
    (run false saveEvery dbPath isFile encodable hoC hoU records
      entries).exitCode.toNat = 0 ∧
    (update_files saveEvery dbPath isFile encodable hoU records
      entries).exitCode = ExitCode.Success ∧
    ∀ e ∈ (run false saveEvery dbPath isFile encodable hoC hoU records
      entries).events, isBitRot e = false := by
  rw [run_false_eq]
  refine ⟨update_files_exitCode _ _ _ _ _ _ _, ?_,
    update_files_exitCode _ _ _ _ _ _ _, ?_⟩
  · show (update_files saveEvery dbPath isFile encodable hoU records
      entries).exitCode.toNat = 0
    rw [update_files_exitCode]
    rfl
  · intro e he
    exact update_files_no_bitrot he

/-- Claim C5: the digest worker stats the file immediately before opening
it for the digest read (the first two filesystem operations of `get_hash`
are the `stat` and the `open`, and the returned `modified` is the
`st_mtime` of that `stat`), and every record the reconciler ever writes to
the ledger pairs the digest and timestamp of one single `HashResult` —
records in the final ledger either survive from the initial ledger
unchanged or carry exactly the `hash` and `modified` of the one worker
result for their path. -/
theorem C5_same_read (chunkSize : Nat) (content : List Nat)
    (hashFn : List Nat → List Nat) (file : FileSnapshot) (check : Bool)
    (saveEvery : Nat) (dbPath : String) (isFile encodable : String → Bool)
    (hoC hoU : String → HashOutcome) (records : List Record)
    (entries : List String) :
    (getHashOps chunkSize content).take 2 = [FsOp.statFile, FsOp.openFile] ∧
    (get_hash hashFn chunkSize file).modified = file.mtime ∧
    ∀ x ∈ (run check saveEvery dbPath isFile encodable hoC hoU records
        entries).finalLedger,
      x ∈ records ∨ ∃ hr, (hoC x.path = HashOutcome.ok hr ∨
        hoU x.path = HashOutcome.ok hr) ∧
        x.hash = hr.hash ∧ x.modified = hr.modified := by
  refine ⟨rfl, rfl, ?_⟩
  intro x hx
  cases check with
  | false =>
    rw [run_false_eq] at hx
    rcases update_files_ledger_sub hx with h1 | ⟨_, hr, hho, hh, hm⟩
    · exact Or.inl h1
    · exact Or.inr ⟨hr, Or.inr hho, hh, hm⟩
  | true =>
    by_cases hS : (check_files saveEvery isFile hoC records).exitCode
        = ExitCode.Success
    · rw [run_true_success _ _ _ _ _ _ _ _ hS] at hx
      rcases update_files_ledger_sub hx with h1 | ⟨_, hr, hho, hh, hm⟩
      · rcases check_files_ledger_sub h1 with h2 | ⟨hr, hho, hh, hm⟩
        · exact Or.inl h2
        · exact Or.inr ⟨hr, Or.inl hho, hh, hm⟩
      · exact Or.inr ⟨hr, Or.inr hho, hh, hm⟩
    · rw [run_true_failure _ _ _ _ _ _ _ _ hS] at hx
      rcases check_files_ledger_sub hx with h2 | ⟨hr, hho, hh, hm⟩
      · exact Or.inl h2
      · exact Or.inr ⟨hr, Or.inl hho, hh, hm⟩

/-- Claim C3: the process exit status is `Success` exactly when no
`BitRotDetected` outcome occurred during the run (whatever the other
outcomes were), and the numeric exit codes are 0 and 1. -/
theorem C3_exit_status (check : Bool) (saveEvery : Nat) (dbPath : String)
    (isFile encodable : String → Bool) (hoC hoU : String → HashOutcome)
    (records : List Record) (entries : List String) :
    ((run check saveEvery dbPath isFile encodable hoC hoU records
        entries).exitCode = ExitCode.Success ↔
      ∀ e ∈ (run check saveEvery dbPath isFile encodable hoC hoU records
        entries).events, isBitRot e = false) ∧
    ExitCode.Success.toNat = 0 ∧ ExitCode.Failure.toNat = 1 := by
  refine ⟨?_, rfl, rfl⟩
  cases check with
  | false =>
    rw [run_false_eq]
    constructor
    · intro _ e he
      exact update_files_no_bitrot he
    · intro _
      exact update_files_exitCode _ _ _ _ _ _ _
  | true =>
    have hinv := check_files_exitInv saveEvery isFile hoC records
    by_cases hS : (check_files saveEvery isFile hoC records).exitCode
        = ExitCode.Success
    · rw [run_true_success _ _ _ _ _ _ _ _ hS]
      constructor
      · intro _ e he
        rcases List.mem_append.mp he with h1 | h1
        · by_contra hb
          have hb' : isBitRot e = true := by
            rcases Bool.eq_false_or_eq_true (isBitRot e) with hc | hc
            · exact hc
            · exact absurd hc hb
          have hF : (check_files saveEvery isFile hoC records).exitCode
              = ExitCode.Failure := hinv.mpr ⟨e, h1, hb'⟩
          rw [hS] at hF
          cases hF
        · exact update_files_no_bitrot h1
      · intro _
        exact update_files_exitCode _ _ _ _ _ _ _
    · rw [run_true_failure _ _ _ _ _ _ _ _ hS]
      have hF : (check_files saveEvery isFile hoC records).exitCode
          = ExitCode.Failure := by
        rcases hcc : (check_files saveEvery isFile hoC records).exitCode
        · exact absurd hcc hS
        · rfl
      constructor
      · intro h
        have h' : (check_files saveEvery isFile hoC records).exitCode
            = ExitCode.Success := h
        rw [h'] at hF
        cases hF
      · intro hall
        obtain ⟨e, he, hb⟩ := hinv.mp hF
        rw [hall e he] at hb
        cases hb

/-- Claim C7, counterexample: with `save_every = 2` and three records
whose files are all missing, the verification pass accumulates three
uncommitted deletions — the deletion branch of `check_files` `continue`s
without calling `maybe_commit`, so more than `save_every` mutations can be
pending between checkpoints. -/
theorem C7_counterexample :
    2 < maxPending (check_files 2 (fun _ => false)
      (fun _ => HashOutcome.notFound)
      [⟨"a", [0], 0⟩, ⟨"b", [0], 0⟩, ⟨"c", [0], 0⟩]).events ∧
    maxPending (check_files 2 (fun _ => false)
      (fun _ => HashOutcome.notFound)
      [⟨"a", [0], 0⟩, ⟨"b", [0], 0⟩, ⟨"c", [0], 0⟩]).events = 3 := by
  decide

/-- Claim C7 (amended): in the discovery pass at most `save_every`
uncommitted mutations are ever pending (`maybe_commit` runs after every
insertion), and both passes end with an unconditional commit; but in the
verification pass the deletion branch does not invoke the periodic
checkpoint, so its pending-deletion count is not bounded by `save_every`
(see `C7_counterexample`). -/
theorem C7_checkpoint_amended (saveEvery : Nat) (dbPath : String)
    (isFile encodable : String → Bool) (hoC hoU : String → HashOutcome)
    (records ledger : List Record) (entries : List String)
    (hse : 0 < saveEvery) :
    maxPending (update_files saveEvery dbPath isFile encodable hoU ledger
      entries).events ≤ saveEvery ∧
    (∃ t, (update_files saveEvery dbPath isFile encodable hoU ledger
      entries).events = t ++ [Ev.commit]) ∧
    ∃ t, (check_files saveEvery isFile hoC records).events
      = t ++ [Ev.commit] :=
  ⟨update_files_maxPending hse,
    update_files_ends_commit saveEvery dbPath isFile encodable hoU ledger
      entries,
    check_files_ends_commit saveEvery isFile hoC records⟩

theorem C7_checkpoint_amended_witness :
    maxPending (update_files 2 "db" (fun _ => true) (fun _ => true)
      (fun _ => HashOutcome.ok ⟨[1], 5⟩) [] ["a"]).events ≤ 2 ∧
    (∃ t, (update_files 2 "db" (fun _ => true) (fun _ => true)
      (fun _ => HashOutcome.ok ⟨[1], 5⟩) [] ["a"]).events
        = t ++ [Ev.commit]) ∧
    ∃ t, (check_files 2 (fun _ => true) (fun _ => HashOutcome.ok ⟨[1], 5⟩)
      []).events = t ++ [Ev.commit] :=
  C7_checkpoint_amended 2 "db" (fun _ => true) (fun _ => true)
    (fun _ => HashOutcome.ok ⟨[1], 5⟩) (fun _ => HashOutcome.ok ⟨[1], 5⟩)
    [] [] ["a"] (by decide)


/-! ### Claims C1, C2, C4, C6 -/

theorem checkPhase2_fold_bitrot (se : Nat) {ho : String → HashOutcome}
    (l : List Record) (st : PassState) {r : Record} {hr : HashResult}
    (hmem : r ∈ l) (hnodup : pathsNodup l) (hrled : r ∈ st.ledger)
    (hho : ho r.path = HashOutcome.ok hr)
    (hcl : classify r hr = Outcome.BitRotDetected) :
    (l.foldl (checkPhase2Step se ho) st).exitCode = ExitCode.Failure ∧
    Ev.bitRot r.path r.hash hr.hash r.modified hr.modified
      ∈ (l.foldl (checkPhase2Step se ho) st).events ∧
    r ∈ (l.foldl (checkPhase2Step se ho) st).ledger := by
  obtain ⟨l1, l2, rfl⟩ := List.append_of_mem hmem
  obtain ⟨hl1, hl2⟩ := pathsNodup_split hnodup
  rw [List.foldl_append, List.foldl_cons]
  have hrA : r ∈ (l1.foldl (checkPhase2Step se ho) st).ledger :=
    checkPhase2_fold_preserved l1 st hrled hl1
  have hup : classify r hr ≠ Outcome.Updated := by
    rw [hcl]; intro hc; cases hc
  have hstep : checkPhase2Step se ho (l1.foldl (checkPhase2Step se ho) st) r
      = maybe_commit se
        { l1.foldl (checkPhase2Step se ho) st with
          events := ((l1.foldl (checkPhase2Step se ho) st).events ++
            [Ev.bitRot r.path r.hash hr.hash r.modified hr.modified]),
          exitCode := ExitCode.Failure } := by
    simp only [checkPhase2Step, hho]
    rw [if_neg hup, if_pos hcl]
  rw [hstep]
  refine ⟨?_, ?_, ?_⟩
  · apply checkPhase2_fold_failure
    rw [maybe_commit_exitCode]
  · apply checkPhase2_fold_events_mono
    apply maybe_commit_events_mono
    exact List.mem_append_right _ (List.mem_singleton_self _)
  · apply checkPhase2_fold_preserved _ _ ?_ hl2
    rw [maybe_commit_ledger]
    exact hrA

theorem check_files_bitrot (se : Nat) {isFile : String → Bool}
    {ho : String → HashOutcome} {records : List Record} {r : Record}
    {hr : HashResult} (hmem : r ∈ records) (hnodup : pathsNodup records)
    (hfile : isFile r.path = true) (hho : ho r.path = HashOutcome.ok hr)
    (hcl : classify r hr = Outcome.BitRotDetected) :
    (check_files se isFile ho records).exitCode = ExitCode.Failure ∧
    Ev.bitRot r.path r.hash hr.hash r.modified hr.modified
      ∈ (check_files se isFile ho records).events ∧
    r ∈ (check_files se isFile ho records).ledger := by
  have hrsub : r ∈ (checkPhase1 se isFile records).2 := by
    rw [checkPhase1_subs]
    exact List.mem_filter.mpr ⟨hmem, hfile⟩
  have hnodup2 : pathsNodup (checkPhase1 se isFile records).2 := by
    rw [checkPhase1_subs]
    unfold pathsNodup at hnodup ⊢
    exact hnodup.sublist (List.Sublist.map Record.path (List.filter_sublist _))
  have hrled : r ∈ (checkPhase1 se isFile records).1.ledger :=
    checkPhase1_mem_ledger se isFile records hmem hfile
  obtain ⟨hF, hE, hL⟩ :=
    checkPhase2_fold_bitrot se _ _ hrsub hnodup2 hrled hho hcl
  unfold check_files
  refine ⟨?_, finishPass_events_mono hE, ?_⟩
  · rw [finishPass_exitCode]
    exact hF
  · rw [finishPass_ledger]
    exact hL

/-- Claim C1: when a record's file still exists, the observed modification
time equals the stored one, and the computed digest differs from the
stored one, the classification is `BitRotDetected`, the run reports the
recorded and current digest with their timestamps, the run fails, and the
stored Record is still present, unchanged, after the run. -/
theorem C1_corruption_invariant (saveEvery : Nat) (dbPath : String)
    (isFile encodable : String → Bool) (hoC hoU : String → HashOutcome)
    (records : List Record) (entries : List String) (r : Record)
    (hr : HashResult) (hmem : r ∈ records) (hnodup : pathsNodup records)
    (hfile : isFile r.path = true) (hho : hoC r.path = HashOutcome.ok hr)
    (hmod : hr.modified = r.modified) (hhash : hr.hash ≠ r.hash) :
    classify r hr = Outcome.BitRotDetected ∧
    Ev.bitRot r.path r.hash hr.hash r.modified hr.modified
      ∈ (run true saveEvery dbPath isFile encodable hoC hoU records
          entries).events ∧
    r ∈ (run true saveEvery dbPath isFile encodable hoC hoU records
          entries).finalLedger ∧
    (∀ x ∈ (run true saveEvery dbPath isFile encodable hoC hoU records
          entries).finalLedger, x.path = r.path → x = r) ∧
    (run true saveEvery dbPath isFile encodable hoC hoU records
      entries).exitCode = ExitCode.Failure := by
  have hcl : classify r hr = Outcome.BitRotDetected :=
    (classify_eq_bitrot_iff r hr).mpr
      ⟨hmod.symm, fun hc => hhash hc.symm⟩
  obtain ⟨hF, hE, hL⟩ := check_files_bitrot saveEvery hmem hnodup hfile hho hcl
  have hrun := run_true_failure saveEvery dbPath isFile encodable hoC hoU
    records entries (by rw [hF]; intro hc; cases hc)
  rw [hrun]
  refine ⟨hcl, hE, hL, ?_, hF⟩
  intro x hx hp
  exact pathsNodup_unique (check_files_nodup hnodup) hx hL hp

theorem C1_corruption_invariant_witness :
    classify ⟨"a", [0], 5⟩ ⟨[1], 5⟩ = Outcome.BitRotDetected ∧
    Ev.bitRot "a" [0] [1] 5 5
      ∈ (run true 1000 "db" (fun _ => true) (fun _ => true)
          (fun _ => HashOutcome.ok ⟨[1], 5⟩) (fun _ => HashOutcome.notFound)
          [⟨"a", [0], 5⟩] []).events ∧
    (⟨"a", [0], 5⟩ : Record)
      ∈ (run true 1000 "db" (fun _ => true) (fun _ => true)
          (fun _ => HashOutcome.ok ⟨[1], 5⟩) (fun _ => HashOutcome.notFound)
          [⟨"a", [0], 5⟩] []).finalLedger ∧
    (∀ x ∈ (run true 1000 "db" (fun _ => true) (fun _ => true)
          (fun _ => HashOutcome.ok ⟨[1], 5⟩) (fun _ => HashOutcome.notFound)
          [⟨"a", [0], 5⟩] []).finalLedger,
        x.path = Record.path ⟨"a", [0], 5⟩ → x = ⟨"a", [0], 5⟩) ∧
    (run true 1000 "db" (fun _ => true) (fun _ => true)
      (fun _ => HashOutcome.ok ⟨[1], 5⟩) (fun _ => HashOutcome.notFound)
      [⟨"a", [0], 5⟩] []).exitCode = ExitCode.Failure :=
  C1_corruption_invariant 1000 "db" (fun _ => true) (fun _ => true)
    (fun _ => HashOutcome.ok ⟨[1], 5⟩) (fun _ => HashOutcome.notFound)
    [⟨"a", [0], 5⟩] [] ⟨"a", [0], 5⟩ ⟨[1], 5⟩ (by decide) (by decide) rfl
    rfl rfl (by decide)

theorem checkPhase2_fold_updated (se : Nat) {ho : String → HashOutcome}
    (l : List Record) (st : PassState) {r : Record} {hr : HashResult}
    (hmem : r ∈ l) (hnodup : pathsNodup l)
    (hho : ho r.path = HashOutcome.ok hr)
    (hcl : classify r hr = Outcome.Updated) :
    Ev.updated r.path ∈ (l.foldl (checkPhase2Step se ho) st).events ∧
    (⟨r.path, hr.hash, hr.modified⟩ : Record)
      ∈ (l.foldl (checkPhase2Step se ho) st).ledger := by
  obtain ⟨l1, l2, rfl⟩ := List.append_of_mem hmem
  obtain ⟨hl1, hl2⟩ := pathsNodup_split hnodup
  rw [List.foldl_append, List.foldl_cons]
  have hstep : checkPhase2Step se ho (l1.foldl (checkPhase2Step se ho) st) r
      = maybe_commit se
        { l1.foldl (checkPhase2Step se ho) st with
          ledger := (update_record
            (l1.foldl (checkPhase2Step se ho) st).ledger r.path hr.hash
            hr.modified),
          changes := ((l1.foldl (checkPhase2Step se ho) st).changes + 1),
          events := ((l1.foldl (checkPhase2Step se ho) st).events ++
            [Ev.updated r.path]) } := by
    simp only [checkPhase2Step, hho]
    rw [if_pos hcl]
  rw [hstep]
  constructor
  · apply checkPhase2_fold_events_mono
    apply maybe_commit_events_mono
    exact List.mem_append_right _ (List.mem_singleton_self _)
  · refine checkPhase2_fold_preserved _ _ ?_ ?_
    · rw [maybe_commit_ledger]
      exact mem_update_record.mpr (Or.inr rfl)
    · intro r' hr'
      exact hl2 r' hr'

/-- Claim C2: when a record's file still exists and the observed
modification time differs from the stored one, the classification is
`Updated` — never `BitRotDetected`, even if the digest also changed — an
update is reported, the Record is overwritten with the newly computed
digest and modification time, and no corruption report for that path is
ever emitted by the pass. -/
theorem C2_timestamp_priority (saveEvery : Nat) (isFile : String → Bool)
    (ho : String → HashOutcome) (records : List Record) (r : Record)
    (hr : HashResult) (hmem : r ∈ records) (hnodup : pathsNodup records)
    (hfile : isFile r.path = true) (hho : ho r.path = HashOutcome.ok hr)
    (hmod : hr.modified ≠ r.modified) :
    classify r hr = Outcome.Updated ∧
    classify r hr ≠ Outcome.BitRotDetected ∧
    Ev.updated r.path ∈ (check_files saveEvery isFile ho records).events ∧
    (⟨r.path, hr.hash, hr.modified⟩ : Record)
      ∈ (check_files saveEvery isFile ho records).ledger ∧
    ∀ h1 h2 m1 m2, Ev.bitRot r.path h1 h2 m1 m2
      ∉ (check_files saveEvery isFile ho records).events := by
  have hcl : classify r hr = Outcome.Updated :=
    (classify_eq_updated_iff r hr).mpr (fun hc => hmod hc.symm)
  have hrsub : r ∈ (checkPhase1 saveEvery isFile records).2 := by
    rw [checkPhase1_subs]
    exact List.mem_filter.mpr ⟨hmem, hfile⟩
  have hnodup2 : pathsNodup (checkPhase1 saveEvery isFile records).2 := by
    rw [checkPhase1_subs]
    unfold pathsNodup at hnodup ⊢
    exact hnodup.sublist (List.Sublist.map Record.path (List.filter_sublist _))
  obtain ⟨hE, hL⟩ :=
    checkPhase2_fold_updated saveEvery _ (checkPhase1 saveEvery isFile
      records).1 hrsub hnodup2 hho hcl
  refine ⟨hcl, ?_, ?_, ?_, ?_⟩
  · rw [hcl]
    intro hc
    cases hc
  · exact finishPass_events_mono hE
  · show _ ∈ (finishPass _).ledger
    rw [finishPass_ledger]
    exact hL
  · intro h1 h2 m1 m2 hmemEv
    unfold check_files at hmemEv
    rcases finishPass_events_sub hmemEv with h3 | h3
    · rcases checkPhase2_fold_events_sub _ _ h3 with h4 | h4 | ⟨r', hr', hc⟩
      · unfold checkPhase1 at h4
        rcases checkPhase1_fold_events saveEvery isFile records _ _ h4 with
          h5 | ⟨p, h5⟩ | h5
        · cases h5
        · cases h5
        · cases h5
      · cases h4
      · unfold stepCause at hc
        rcases hc with ⟨he, _⟩ | ⟨he, _⟩ | ⟨hr'', hho', hcase⟩
        · cases he
        · cases he
        · rcases hcase with ⟨he, _⟩ | ⟨he, hcl'⟩ | ⟨he, _⟩
          · cases he
          · injection he with hp _ _ _ _
            have hr'mem : r' ∈ records := by
              have hmem' := hr'
              rw [checkPhase1_subs] at hmem'
              exact (List.mem_filter.mp hmem').1
            have heq : r' = r :=
              pathsNodup_unique hnodup hr'mem hmem hp.symm
            subst heq
            rw [hho] at hho'
            injection hho' with hhr
            subst hhr
            rw [hcl] at hcl'
            cases hcl'
          · cases he
    · cases h3

theorem C2_timestamp_priority_witness :
    classify ⟨"a", [0], 5⟩ ⟨[1], 7⟩ = Outcome.Updated ∧
    classify ⟨"a", [0], 5⟩ ⟨[1], 7⟩ ≠ Outcome.BitRotDetected ∧
    Ev.updated "a" ∈ (check_files 1000 (fun _ => true)
      (fun _ => HashOutcome.ok ⟨[1], 7⟩) [⟨"a", [0], 5⟩]).events ∧
    (⟨"a", [1], 7⟩ : Record) ∈ (check_files 1000 (fun _ => true)
      (fun _ => HashOutcome.ok ⟨[1], 7⟩) [⟨"a", [0], 5⟩]).ledger ∧
    ∀ h1 h2 m1 m2, Ev.bitRot "a" h1 h2 m1 m2
      ∉ (check_files 1000 (fun _ => true)
        (fun _ => HashOutcome.ok ⟨[1], 7⟩) [⟨"a", [0], 5⟩]).events :=
  C2_timestamp_priority 1000 (fun _ => true)
    (fun _ => HashOutcome.ok ⟨[1], 7⟩) [⟨"a", [0], 5⟩] ⟨"a", [0], 5⟩
    ⟨[1], 7⟩ (by decide) (by decide) rfl rfl (by decide)

/-- Claim C4, counterexample: a run that detects corruption returns right
after the verification pass — the discovery pass does not run, so the new
file "b" is never added, contradicting "the discovery pass still runs". -/
theorem C4_counterexample :
    Ev.bitRot "a" [0] [1] 5 5 ∈ (run true 1000 "db" (fun _ => true)
      (fun _ => true) (fun _ => HashOutcome.ok ⟨[1], 5⟩)
      (fun _ => HashOutcome.ok ⟨[2], 7⟩) [⟨"a", [0], 5⟩] ["b"]).events ∧
    (run true 1000 "db" (fun _ => true) (fun _ => true)
      (fun _ => HashOutcome.ok ⟨[1], 5⟩) (fun _ => HashOutcome.ok ⟨[2], 7⟩)
      [⟨"a", [0], 5⟩] ["b"]).discoveryRan = false ∧
    Ev.added "b" ∉ (run true 1000 "db" (fun _ => true) (fun _ => true)
      (fun _ => HashOutcome.ok ⟨[1], 5⟩) (fun _ => HashOutcome.ok ⟨[2], 7⟩)
      [⟨"a", [0], 5⟩] ["b"]).events := by
  decide

/-- Claim C4 (amended): detecting corruption does not abort the
verification pass — every remaining live-file record is still processed
and reported — and it flips the exit status to failure; but `run` then
returns immediately: the discovery pass is skipped, not run. -/
theorem C4_detection_continues_amended (saveEvery : Nat) (dbPath : String)
    (isFile encodable : String → Bool) (hoC hoU : String → HashOutcome)
    (records : List Record) (entries : List String) (r : Record)
    (hr : HashResult) (hmem : r ∈ records) (hnodup : pathsNodup records)
    (hfile : isFile r.path = true) (hho : hoC r.path = HashOutcome.ok hr)
    (hmod : hr.modified = r.modified) (hhash : hr.hash ≠ r.hash) :
    (run true saveEvery dbPath isFile encodable hoC hoU records
      entries).exitCode = ExitCode.Failure ∧
    (run true saveEvery dbPath isFile encodable hoC hoU records
      entries).discoveryRan = false ∧
    ∀ x ∈ records, isFile x.path = true →
      ∃ e ∈ (run true saveEvery dbPath isFile encodable hoC hoU records
        entries).events, evPath e = some x.path := by
  have hcl : classify r hr = Outcome.BitRotDetected :=
    (classify_eq_bitrot_iff r hr).mpr
      ⟨hmod.symm, fun hc => hhash hc.symm⟩
  obtain ⟨hF, _, _⟩ := check_files_bitrot saveEvery hmem hnodup hfile hho hcl
  have hrun := run_true_failure saveEvery dbPath isFile encodable hoC hoU
    records entries (by rw [hF]; intro hc; cases hc)
  rw [hrun]
  refine ⟨hF, rfl, ?_⟩
  intro x hx hfx
  exact check_files_event_exists hx hfx

theorem C4_detection_continues_amended_witness :
    (run true 1000 "db" (fun _ => true) (fun _ => true)
      (fun _ => HashOutcome.ok ⟨[1], 5⟩) (fun _ => HashOutcome.ok ⟨[2], 7⟩)
      [⟨"a", [0], 5⟩] ["b"]).exitCode = ExitCode.Failure ∧
    (run true 1000 "db" (fun _ => true) (fun _ => true)
      (fun _ => HashOutcome.ok ⟨[1], 5⟩) (fun _ => HashOutcome.ok ⟨[2], 7⟩)
      [⟨"a", [0], 5⟩] ["b"]).discoveryRan = false ∧
    ∀ x ∈ [(⟨"a", [0], 5⟩ : Record)], (fun _ => true) x.path = true →
      ∃ e ∈ (run true 1000 "db" (fun _ => true) (fun _ => true)
        (fun _ => HashOutcome.ok ⟨[1], 5⟩)
        (fun _ => HashOutcome.ok ⟨[2], 7⟩)
        [⟨"a", [0], 5⟩] ["b"]).events, evPath e = some x.path :=
  C4_detection_continues_amended 1000 "db" (fun _ => true) (fun _ => true)
    (fun _ => HashOutcome.ok ⟨[1], 5⟩) (fun _ => HashOutcome.ok ⟨[2], 7⟩)
    [⟨"a", [0], 5⟩] ["b"] ⟨"a", [0], 5⟩ ⟨[1], 5⟩ (by decide) (by decide)
    rfl rfl rfl (by decide)

/-- Claim C6: a per-file digest failure is contained: a `FileNotFoundError`
is skipped silently (an unreported classification, nothing else changes in
the pass state — no ledger mutation, no counter change, no exit-code
change), any other failure is reported as a hash error and skipped the
same way, in both passes; and the pass is not aborted — every live-file
record of the verification pass still produces an event. -/
theorem C6_failure_containment (saveEvery : Nat)
    (hoN hoE : String → HashOutcome) (st : PassState) (r : Record)
    (p : String) (isFile : String → Bool) (records : List Record)
    (x : Record) (hN : hoN r.path = HashOutcome.notFound)
    (hNp : hoN p = HashOutcome.notFound)
    (hE : hoE r.path = HashOutcome.err) (hEp : hoE p = HashOutcome.err)
    (hmem : x ∈ records) (hfile : isFile x.path = true) :
    checkPhase2Step saveEvery hoN st r
      = { st with events := st.events ++ [Ev.skippedVanished r.path] } ∧
    checkPhase2Step saveEvery hoE st r
      = { st with events := st.events ++ [Ev.hashError r.path] } ∧
    updatePhase2Step saveEvery hoN st p
      = { st with events := st.events ++ [Ev.skippedVanished p] } ∧
    updatePhase2Step saveEvery hoE st p
      = { st with events := st.events ++ [Ev.hashError p] } ∧
    reported (Ev.skippedVanished p) = false ∧
    reported (Ev.hashError p) = true ∧
    ∃ e ∈ (check_files saveEvery isFile hoE records).events,
      evPath e = some x.path := by
  refine ⟨?_, ?_, ?_, ?_, rfl, rfl, check_files_event_exists hmem hfile⟩
  · simp only [checkPhase2Step, hN]
  · simp only [checkPhase2Step, hE]
  · simp only [updatePhase2Step, hNp]
  · simp only [updatePhase2Step, hEp]

theorem C6_failure_containment_witness :
    checkPhase2Step 1 (fun _ => HashOutcome.notFound)
        (initState []) ⟨"a", [0], 5⟩
      = { initState [] with events :=
          (initState []).events ++ [Ev.skippedVanished "a"] } ∧
    checkPhase2Step 1 (fun _ => HashOutcome.err) (initState [])
        ⟨"a", [0], 5⟩
      = { initState [] with events :=
          (initState []).events ++ [Ev.hashError "a"] } ∧
    updatePhase2Step 1 (fun _ => HashOutcome.notFound) (initState []) "b"
      = { initState [] with events :=
          (initState []).events ++ [Ev.skippedVanished "b"] } ∧
    updatePhase2Step 1 (fun _ => HashOutcome.err) (initState []) "b"
      = { initState [] with events :=
          (initState []).events ++ [Ev.hashError "b"] } ∧
    reported (Ev.skippedVanished "b") = false ∧
    reported (Ev.hashError "b") = true ∧
    ∃ e ∈ (check_files 1 (fun _ => true) (fun _ => HashOutcome.err)
      [⟨"c", [0], 5⟩]).events, evPath e = some (Record.path ⟨"c", [0], 5⟩) :=
  C6_failure_containment 1 (fun _ => HashOutcome.notFound)
    (fun _ => HashOutcome.err) (initState []) ⟨"a", [0], 5⟩ "b"
    (fun _ => true) [⟨"c", [0], 5⟩] ⟨"c", [0], 5⟩ rfl rfl rfl rfl
    (by decide) rfl


/-! ### Claim C8 -/

/-- Claim C8, counterexample: if a file was already corrupted before the
first run (stored digest `[0]`, live digest `[1]`, same timestamp), the
first run reports bit rot and deliberately leaves the Record unchanged, so
a second run with no filesystem changes in between reports
`BitRotDetected` again — not `Unchanged` for every file as claimed. -/
theorem C8_counterexample :
    Ev.bitRot "a" [0] [1] 5 5 ∈ (run true 1000 "db" (fun _ => true)
      (fun _ => true) (fun _ => HashOutcome.ok ⟨[1], 5⟩)
      (fun _ => HashOutcome.ok ⟨[1], 5⟩)
      (run true 1000 "db" (fun _ => true) (fun _ => true)
        (fun _ => HashOutcome.ok ⟨[1], 5⟩)
        (fun _ => HashOutcome.ok ⟨[1], 5⟩)
        [⟨"a", [0], 5⟩] ["a"]).finalLedger ["a"]).events := by
  decide

/-- Claim C8 (amended): idempotence holds for clean runs — if the first
run exits successfully (no corruption was found), every existing file's
digest computation succeeds, and every path is encodable, then a second
run over the resulting ledger with no filesystem changes performs zero
ledger mutations, leaves the ledger identical, exits successfully, and
classifies every file `Unchanged` (its events are only silent unchanged
classifications and commits). -/
theorem C8_idempotence_amended (saveEvery : Nat) (dbPath : String)
    (isFile encodable : String → Bool) (ho : String → HashOutcome)
    (records : List Record) (entries : List String)
    (hok : ∀ p, isFile p = true → ∃ hr, ho p = HashOutcome.ok hr)
    (henc : ∀ p, encodable p = true)
    (hS : (run true saveEvery dbPath isFile encodable ho ho records
      entries).exitCode = ExitCode.Success) :
    (run true saveEvery dbPath isFile encodable ho ho
      (run true saveEvery dbPath isFile encodable ho ho records
        entries).finalLedger entries).finalLedger
      = (run true saveEvery dbPath isFile encodable ho ho records
          entries).finalLedger ∧
    (run true saveEvery dbPath isFile encodable ho ho
      (run true saveEvery dbPath isFile encodable ho ho records
        entries).finalLedger entries).exitCode = ExitCode.Success ∧
    ∀ e ∈ (run true saveEvery dbPath isFile encodable ho ho
      (run true saveEvery dbPath isFile encodable ho ho records
        entries).finalLedger entries).events,
      isMutation e = false ∧ (e = Ev.commit ∨ ∃ p, e = Ev.unchanged p) := by
  have hC1S : (check_files saveEvery isFile ho records).exitCode
      = ExitCode.Success := by
    by_cases hc : (check_files saveEvery isFile ho records).exitCode
        = ExitCode.Success
    · exact hc
    · rw [run_true_failure saveEvery dbPath isFile encodable ho ho records
        entries hc] at hS
      exact absurd hS hc
  have hrun1 := run_true_success saveEvery dbPath isFile encodable ho ho
    records entries hC1S
  have hfinal1 : (run true saveEvery dbPath isFile encodable ho ho records
      entries).finalLedger
      = (update_files saveEvery dbPath isFile encodable ho
          (check_files saveEvery isFile ho records).ledger entries).ledger := by
    rw [hrun1]
  have hgoodc : ∀ x ∈ (check_files saveEvery isFile ho records).ledger,
      goodRec isFile ho x := check_files_good hok hC1S
  have hgood1 : ∀ x ∈ (update_files saveEvery dbPath isFile encodable ho
      (check_files saveEvery isFile ho records).ledger entries).ledger,
      goodRec isFile ho x := by
    intro x hx
    rcases update_files_ledger_sub hx with h1 | ⟨hel, hr', hho', hh, hm⟩
    · exact hgoodc x h1
    · have hf : isFile x.path = true := by
        unfold eligibleNew at hel
        simp only [Bool.and_eq_true] at hel
        exact hel.1.1.2
      refine ⟨hf, ?_⟩
      rw [hho']
      have heq : hr' = ⟨x.hash, x.modified⟩ := by
        cases hr' with
        | mk a b =>
          simp only [HashResult.mk.injEq]
          exact ⟨hh.symm, hm.symm⟩
      rw [heq]
  have hex1 : ∀ p ∈ entries, p = dbPath ∨ isFile p = false ∨
      (encodable p = true ∧ record_exists (update_files saveEvery dbPath
        isFile encodable ho (check_files saveEvery isFile ho records).ledger
        entries).ledger p = true) := by
    intro p hp
    by_cases hdb : p = dbPath
    · exact Or.inl hdb
    · by_cases hf : isFile p = true
      · exact Or.inr (Or.inr
          ⟨henc p, update_files_exists hp hdb hf (henc p) hok⟩)
      · refine Or.inr (Or.inl ?_)
        rcases Bool.eq_false_or_eq_true (isFile p) with hc | hc
        · exact absurd hc hf
        · exact hc
  obtain ⟨hled2, hexit2, hev2⟩ := check_files_clean saveEvery hgood1
  have hclean2 : update_files saveEvery dbPath isFile encodable ho
      (check_files saveEvery isFile ho
        (update_files saveEvery dbPath isFile encodable ho
          (check_files saveEvery isFile ho records).ledger entries).ledger
        ).ledger entries
      = ⟨(check_files saveEvery isFile ho
          (update_files saveEvery dbPath isFile encodable ho
            (check_files saveEvery isFile ho records).ledger entries).ledger
          ).ledger, 0, ExitCode.Success, [Ev.commit]⟩ := by
    apply update_files_clean
    intro p hp
    rw [hled2]
    exact hex1 p hp
  have hupdLedger : (update_files saveEvery dbPath isFile encodable ho
      (check_files saveEvery isFile ho
        (update_files saveEvery dbPath isFile encodable ho
          (check_files saveEvery isFile ho records).ledger entries).ledger
        ).ledger entries).ledger
      = (update_files saveEvery dbPath isFile encodable ho
          (check_files saveEvery isFile ho records).ledger entries).ledger := by
    rw [hclean2]
    exact hled2
  have hupdExit : (update_files saveEvery dbPath isFile encodable ho
      (check_files saveEvery isFile ho
        (update_files saveEvery dbPath isFile encodable ho
          (check_files saveEvery isFile ho records).ledger entries).ledger
        ).ledger entries).exitCode = ExitCode.Success := by
    rw [hclean2]
  have hupdEvents : (update_files saveEvery dbPath isFile encodable ho
      (check_files saveEvery isFile ho
        (update_files saveEvery dbPath isFile encodable ho
          (check_files saveEvery isFile ho records).ledger entries).ledger
        ).ledger entries).events = [Ev.commit] := by
    rw [hclean2]
  have hrun2 := run_true_success saveEvery dbPath isFile encodable ho ho
    (update_files saveEvery dbPath isFile encodable ho
      (check_files saveEvery isFile ho records).ledger entries).ledger
    entries hexit2
  rw [hfinal1, hrun2]
  refine ⟨hupdLedger, hupdExit, ?_⟩
  intro e he
  have he' : e ∈ (check_files saveEvery isFile ho
      (update_files saveEvery dbPath isFile encodable ho
        (check_files saveEvery isFile ho records).ledger entries).ledger
      ).events ++ (update_files saveEvery dbPath isFile encodable ho
      (check_files saveEvery isFile ho
        (update_files saveEvery dbPath isFile encodable ho
          (check_files saveEvery isFile ho records).ledger entries).ledger
        ).ledger entries).events := he
  rcases List.mem_append.mp he' with h1 | h1
  · rcases hev2 e h1 with h2 | ⟨p, h2⟩
    · rw [h2]
      exact ⟨rfl, Or.inl rfl⟩
    · rw [h2]
      exact ⟨rfl, Or.inr ⟨p, rfl⟩⟩
  · rw [hupdEvents] at h1
    rw [List.mem_singleton.mp h1]
    exact ⟨rfl, Or.inl rfl⟩

theorem C8_idempotence_amended_witness :
    (run true 1 "db" (fun _ => true) (fun _ => true)
      (fun _ => HashOutcome.ok ⟨[1], 5⟩) (fun _ => HashOutcome.ok ⟨[1], 5⟩)
      (run true 1 "db" (fun _ => true) (fun _ => true)
        (fun _ => HashOutcome.ok ⟨[1], 5⟩)
        (fun _ => HashOutcome.ok ⟨[1], 5⟩)
        [⟨"a", [1], 5⟩] ["a"]).finalLedger ["a"]).finalLedger
      = (run true 1 "db" (fun _ => true) (fun _ => true)
          (fun _ => HashOutcome.ok ⟨[1], 5⟩)
          (fun _ => HashOutcome.ok ⟨[1], 5⟩)
          [⟨"a", [1], 5⟩] ["a"]).finalLedger ∧
    (run true 1 "db" (fun _ => true) (fun _ => true)
      (fun _ => HashOutcome.ok ⟨[1], 5⟩) (fun _ => HashOutcome.ok ⟨[1], 5⟩)
      (run true 1 "db" (fun _ => true) (fun _ => true)
        (fun _ => HashOutcome.ok ⟨[1], 5⟩)
        (fun _ => HashOutcome.ok ⟨[1], 5⟩)
        [⟨"a", [1], 5⟩] ["a"]).finalLedger ["a"]).exitCode
      = ExitCode.Success ∧
    ∀ e ∈ (run true 1 "db" (fun _ => true) (fun _ => true)
      (fun _ => HashOutcome.ok ⟨[1], 5⟩) (fun _ => HashOutcome.ok ⟨[1], 5⟩)
      (run true 1 "db" (fun _ => true) (fun _ => true)
        (fun _ => HashOutcome.ok ⟨[1], 5⟩)
        (fun _ => HashOutcome.ok ⟨[1], 5⟩)
        [⟨"a", [1], 5⟩] ["a"]).finalLedger ["a"]).events,
      isMutation e = false ∧ (e = Ev.commit ∨ ∃ p, e = Ev.unchanged p) :=
  C8_idempotence_amended 1 "db" (fun _ => true) (fun _ => true)
    (fun _ => HashOutcome.ok ⟨[1], 5⟩) [⟨"a", [1], 5⟩] ["a"]
    (fun p _ => ⟨⟨[1], 5⟩, rfl⟩) (fun _ => rfl) (by decide)

end Bitrat
